import Mathlib

set_option maxRecDepth 10000

/-!
# Verification of the flux-oriented-architecture core

Shallow embedding of the flow interpreter of the repository
(`src/core/interpolator.ts`, `src/core/executor.ts`, `src/core/validator.ts`,
`src/core/loader.ts`, `src/core/server.ts`) and proofs about it.

JS runtime values are modelled by the inductive `Value`; JS objects are
association lists preserving insertion order (as `Object.entries` does);
the per-request mutable context is such an association list.  The executor
is modelled as a fuel-indexed state-passing interpreter: JS exceptions
become the `NodeRes.thrown` outcome, `async`/`await` sequencing becomes
explicit state threading, and a `parallel` node's `Promise.all` over the
shared context is modelled by running the branches sequentially in order
(the deterministic schedule; the code itself shares a single mutable
context between branches).
-/

namespace Flux

/-- JS runtime values flowing through a flux: the JSON constructors plus
`undefined`.  Mirrors the untyped `any` values of the TypeScript source. -/
inductive Value where
  | vUndefined : Value
  | vNull : Value
  | vBool (b : Bool) : Value
  | vNum (n : Int) : Value
  | vStr (s : String) : Value
  | vArr (xs : List Value) : Value
  | vObj (kvs : List (String × Value)) : Value
deriving Repr

/-- JS truthiness (`if (x)`, `!!x`): `undefined`, `null`, `false`, `0` and
the empty string are falsy, everything else (including `[]` and `{}`) is
truthy. -/
def truthy : Value → Bool
  | .vUndefined => false
  | .vNull => false
  | .vBool b => b
  | .vNum n => n != 0
  | .vStr s => s != ""
  | .vArr _ => true
  | .vObj _ => true

mutual
/-- Size of a value (an executable measure to drive fuel-indexed
recursion over nested values). -/
def valueSize : Value → Nat
  | .vArr xs => 1 + valueSizeList xs
  | .vObj kvs => 1 + valueSizeObj kvs
  | _ => 1

/-- Sum of sizes of the elements of an array value. -/
def valueSizeList : List Value → Nat
  | [] => 0
  | x :: rest => valueSize x + valueSizeList rest

/-- Sum of sizes of the values of an object value. -/
def valueSizeObj : List (String × Value) → Nat
  | [] => 0
  | kv :: rest => valueSize kv.2 + valueSizeObj rest
end

/-- JS `String(value)` coercion at bounded depth (the bound only serves
termination; `jsToString` instantiates it with the size of the value, which
bounds its nesting depth).  `Array.prototype.toString` is `join(",")`, and
`join` renders `undefined`/`null` elements as the empty string. -/
def jsToStringF : Nat → Value → String
  | 0, _ => ""
  | _ + 1, .vUndefined => "undefined"
  | _ + 1, .vNull => "null"
  | _ + 1, .vBool b => if b then "true" else "false"
  | _ + 1, .vNum n => toString n
  | _ + 1, .vStr s => s
  | f + 1, .vArr xs =>
    String.intercalate "," (xs.map fun x =>
      match x with
      | .vUndefined => ""
      | .vNull => ""
      | x => jsToStringF f x)
  | _ + 1, .vObj _ => "[object Object]"

/-- JS `String(value)`, used by the string-interpolation mode of the
interpolator. -/
def jsToString (v : Value) : String := jsToStringF (valueSize v) v

/-- A JS object as an insertion-ordered association list. -/
abbrev Obj := List (String × Value)

/-- Property read (`o[k]`), first binding wins — JS objects have unique
keys, which `objSet`/`objDel` maintain. -/
def objGet (kvs : Obj) (k : String) : Option Value :=
  match kvs with
  | [] => none
  | (k', v) :: rest => if k' = k then some v else objGet rest k

/-- Property write (`o[k] = v`): updates in place preserving key order,
appends when the key is new — JS property-insertion order. -/
def objSet (kvs : Obj) (k : String) (v : Value) : Obj :=
  match kvs with
  | [] => [(k, v)]
  | (k', v') :: rest => if k' = k then (k', v) :: rest else (k', v') :: objSet rest k v

/-- `delete o[k]`. -/
def objDel (kvs : Obj) (k : String) : Obj :=
  match kvs with
  | [] => []
  | (k', v') :: rest => if k' = k then objDel rest k else (k', v') :: objDel rest k

/-- The per-request context object (`FluxContext`): a dynamic property bag
holding `input`, `results`, `state`, `plugins`, `args` and the dynamic
top-level bindings.  The `req`/`res` HTTP handles are kept outside of it
(in the executor state) as opaque plumbing. -/
abbrev Ctx := Obj

/-- Digit-string parse (structural model of a decimal index). -/
def digitsToNat (acc : Nat) : List Char → Option Nat
  | [] => some acc
  | c :: rest =>
    if c.isDigit then digitsToNat (acc * 10 + (c.toNat - 48)) rest else none

/-- A canonical array/string index: a non-empty digit string with no
leading zero (JS property access `a["01"]` does not hit index 1). -/
def indexOf? (key : String) : Option Nat :=
  match key.toList with
  | [] => none
  | l =>
    match digitsToNat 0 l with
    | some i => if Nat.repr i = key then some i else none
    | none => none

/-- One step of `value[part]` inside `Interpolator.getValueByPath`:
property access on objects, index/`length` access on arrays and strings,
`undefined` on other primitives. -/
def getField (v : Value) (key : String) : Value :=
  match v with
  | .vObj kvs => (objGet kvs key).getD .vUndefined
  | .vArr xs =>
    if key = "length" then .vNum xs.length
    else match indexOf? key with
      | some i => xs.getD i .vUndefined
      | none => .vUndefined
  | .vStr s =>
    if key = "length" then .vNum s.length
    else match indexOf? key with
      | some i =>
        match s.toList.get? i with
        | some c => .vStr (String.mk [c])
        | none => .vUndefined
      | none => .vUndefined
  | _ => .vUndefined

/-- The loop of `Interpolator.getValueByPath`: before every access, a
`null`/`undefined` intermediate short-circuits to `undefined`. -/
def walkPath (parts : List String) (v : Value) : Value :=
  match parts with
  | [] => v
  | p :: ps =>
    match v with
    | .vUndefined => .vUndefined
    | .vNull => .vUndefined
    | v => walkPath ps (getField v p)

/-- `path.split('.')` (structural model of `String.prototype.split` with a
one-character separator): `""` splits to `[""]`, separators at the ends
produce empty fields. -/
def splitDotGo (acc : List Char) : List Char → List String
  | [] => [String.mk acc.reverse]
  | '.' :: rest => String.mk acc.reverse :: splitDotGo [] rest
  | c :: rest => splitDotGo (c :: acc) rest

/-- `path.split('.')`. -/
def splitDot (s : String) : List String := splitDotGo [] s.toList

/-- `Interpolator.getValueByPath(path, context)`: split on `.` and walk the
context object. -/
def getValueByPath (path : String) (ctx : Ctx) : Value :=
  walkPath (splitDot path) (.vObj ctx)

/-- Scan the characters following `"${"` for the regex fragment
`([^}]+)\}`: returns the (non-empty) content and the characters after the
closing brace. -/
def takeInner (l : List Char) : Option (List Char × List Char) :=
  match l.dropWhile (· ≠ '}') with
  | '}' :: rest' =>
    if (l.takeWhile (· ≠ '}')).isEmpty then none
    else some (l.takeWhile (· ≠ '}'), rest')
  | _ => none

/-- `expression.includes("${")`. -/
def hasDollarBrace : List Char → Bool
  | '$' :: '{' :: _ => true
  | _ :: rest => hasDollarBrace rest
  | [] => false

/-- The full-expression match `^\$\{([^}]+)\}$` of `Interpolator.resolve`:
the whole string is one `${path}` with a non-empty, brace-free path. -/
def fullExprPath (s : String) : Option String :=
  match s.toList with
  | '$' :: '{' :: rest =>
    match takeInner rest with
    | some (content, []) => some (String.mk content)
    | _ => none
  | _ => none

/-- String rendering of one interpolated value inside the replace callback
(`value !== undefined && value !== null ? String(value) : ''`). -/
def renderValue (v : Value) : String :=
  match v with
  | .vUndefined => ""
  | .vNull => ""
  | v => jsToString v

/-- The scan of `expression.replace(/\$\{([^}]+)\}/g, …)` at bounded fuel;
every step consumes at least one character, so `interpolate` runs it with
fuel equal to the length of the input.  Each matched `${path}` is replaced
by `String(lookup(path))` (with `undefined`/`null` rendered as the empty
string); unmatched text is copied, and a `"${"` with no legal closing brace
is copied literally, as the regex engine does after a failed match. -/
def interpGo (ctx : Ctx) : Nat → List Char → String
  | _, [] => ""
  | 0, l => String.mk l
  | f + 1, '$' :: '{' :: rest =>
    match takeInner rest with
    | some (content, rest') =>
      renderValue (getValueByPath (String.mk content) ctx) ++ interpGo ctx f rest'
    | none => "$" ++ interpGo ctx f ('{' :: rest)
  | f + 1, c :: rest => String.mk [c] ++ interpGo ctx f rest

/-- The global-replace branch of `Interpolator.resolve`. -/
def interpolate (ctx : Ctx) (l : List Char) : String :=
  interpGo ctx l.length l

mutual
/-- `Interpolator.resolve(expression, context)`: recursive value
substitution — `null`/`undefined` unchanged, arrays element-wise, objects
value-wise, non-string primitives unchanged, strings without `${`
unchanged, a full `^\$\{([^}]+)\}$` expression returns the looked-up value
preserving its native type, any other string interpolates `${path}`
occurrences into a string. -/
def resolve (expr : Value) (ctx : Ctx) : Value :=
  match expr with
  | .vUndefined => .vUndefined
  | .vNull => .vNull
  | .vArr xs => .vArr (resolveList xs ctx)
  | .vObj kvs => .vObj (resolveObj kvs ctx)
  | .vBool b => .vBool b
  | .vNum n => .vNum n
  | .vStr s =>
    if hasDollarBrace s.toList then
      match fullExprPath s with
      | some path => getValueByPath path ctx
      | none => .vStr (interpolate ctx s.toList)
    else .vStr s

/-- `expression.map(item => this.resolve(item, context))`. -/
def resolveList (xs : List Value) (ctx : Ctx) : List Value :=
  match xs with
  | [] => []
  | x :: rest => resolve x ctx :: resolveList rest ctx

/-- `Object.entries` loop of the object branch of `resolve`. -/
def resolveObj (kvs : List (String × Value)) (ctx : Ctx) : List (String × Value) :=
  match kvs with
  | [] => []
  | (k, v) :: rest => (k, resolve v ctx) :: resolveObj rest ctx
end

/-! ## The flow executor (`src/core/executor.ts`)

The executor is a fuel-indexed interpreter: fuel only serves termination of
the shallow embedding (the source recursion is bounded by the node tree and
the iterated arrays), and running out of fuel is reported as the distinct
outcome `NodeRes.fuelOut`, never confused with a result of the program. -/

/-- The flow-node AST (`src/types/flux.ts`).  `args` of an action and the
`body` of a return are arbitrary JSON expressions resolved by the
interpolator. -/
inductive FlowNode where
  | action (name path : String) (args : Option (List (String × Value)))
  | cond (ifE : String) (thenB : List FlowNode) (elseB : Option (List FlowNode))
  | forEach (items asVar : String) (doB : List FlowNode)
  | parallel (branches : List (List FlowNode))
  | tryc (tryB catchB : List FlowNode) (errorVar : Option String)
  | ret (status : Option Nat) (body : Value)
deriving Repr

/-- The HTTP response handle (`context.res`): Express's `headersSent` flag
and the log of performed writes. -/
structure Resp where
  sent : Bool
  writes : List (Nat × Value)
deriving Repr

/-- Executor state: the mutable request context plus the response handle. -/
structure St where
  ctx : Ctx
  resp : Resp
deriving Repr

/-- `res.status(st).send(body)` / `res.json(body)`: Express throws
`ERR_HTTP_HEADERS_SENT` when a response has already been written, otherwise
records the single write and sets `headersSent`. -/
def send (status : Nat) (body : Value) (r : Resp) : Except String Resp :=
  if r.sent then .error "ERR_HTTP_HEADERS_SENT"
  else .ok { sent := true, writes := r.writes ++ [(status, body)] }

/-- A user action handler: receives the (mutable) context, returns a result
and the updated context or throws carrying the context as mutated so far.
Handlers are user code outside the repository; they interact with the
response only through flow nodes. -/
abbrev Handler := Ctx → Except (String × Ctx) (Value × Ctx)

/-- `FluxLoader.getAction`: the path → handler table. -/
abbrev ActionTable := String → Option Handler

/-- Outcome of executing a node or node list: `ok early` (JS `return` value
of `executeNode`, `early = true` signalling early-termination), a thrown JS
exception, or exhaustion of the embedding's fuel. -/
inductive NodeRes where
  | ok (early : Bool)
  | thrown (msg : String)
  | fuelOut
deriving Repr, DecidableEq

/-- `node.status || 200` of `executeReturn` (`0` is falsy in JS). -/
def statusOfRet (status : Option Nat) : Nat :=
  match status with
  | none => 200
  | some n => if n = 0 then 200 else n

/-- `FluxExecutor.executeReturn`: resolve the body only when it is truthy
(`node.body ? this.interpolator.resolve(node.body, context) : undefined`),
write the response with `status || 200`, signal early-termination. -/
def executeReturn (status : Option Nat) (body : Value) (s : St) : NodeRes × St :=
  let b := if truthy body then resolve body s.ctx else Value.vUndefined
  match send (statusOfRet status) b s.resp with
  | .ok r => (.ok true, { s with resp := r })
  | .error e => (.thrown e, s)

/-- `FluxExecutor.executeAction`: look up the handler (throw "Action not
found" when missing), resolve `args` into `context.args` (or delete
`context.args` when the node has none), invoke the handler, then store the
result at `context.results[name]` and `context[name]` and delete
`context.args`.  When the handler throws, none of the post-call stores
run. -/
def executeAction (A : ActionTable) (name path : String)
    (args : Option (List (String × Value))) (s : St) : NodeRes × St :=
  match A path with
  | none => (.thrown ("Action not found: " ++ path), s)
  | some handler =>
    let ctx1 :=
      match args with
      | some kvs => objSet s.ctx "args" (.vObj (resolveObj kvs s.ctx))
      | none => objDel s.ctx "args"
    match handler ctx1 with
    | .error (e, ctx2) => (.thrown e, { s with ctx := ctx2 })
    | .ok (result, ctx2) =>
      match objGet ctx2 "results" with
      | some (.vObj rkvs) =>
        let ctx3 := objSet ctx2 "results" (.vObj (objSet rkvs name result))
        let ctx4 := objSet ctx3 name result
        let ctx5 := objDel ctx4 "args"
        (.ok false, { s with ctx := ctx5 })
      | _ => (.thrown "TypeError: context.results is not an object", { s with ctx := ctx2 })

/-- The `if (node.errorVar) context[node.errorVar] = error` step of
`executeTry`; the caught error is modelled as an object with a `message`
field. -/
def bindError (errorVar : Option String) (e : String) (ctx : Ctx) : Ctx :=
  match errorVar with
  | some ev => objSet ctx ev (.vObj [("message", .vStr e)])
  | none => ctx

mutual
/-- `FluxExecutor.executeNode`: dispatch on the node tag.  The boolean of
`NodeRes.ok` is the early-termination signal the method returns: `true`
after a return node, `false` in every other case — the `executeCondition` /
`executeForEach` / `executeParallel` / `executeTry` helpers return `void`
in the source, so the dispatcher's `return false` stands even when a child
early-terminated. -/
def execNode (A : ActionTable) : Nat → FlowNode → St → NodeRes × St
  | 0, _, s => (.fuelOut, s)
  | _ + 1, .action name path args, s => executeAction A name path args s
  | f + 1, .cond ifE thenB elseB, s =>
    if truthy (resolve (.vStr ifE) s.ctx) then
      match execSeq A f thenB s with
      | (.ok _, s') => (.ok false, s')
      | (.thrown e, s') => (.thrown e, s')
      | (.fuelOut, s') => (.fuelOut, s')
    else
      match elseB with
      | some els =>
        match execSeq A f els s with
        | (.ok _, s') => (.ok false, s')
        | (.thrown e, s') => (.thrown e, s')
        | (.fuelOut, s') => (.fuelOut, s')
      | none => (.ok false, s)
  | f + 1, .forEach items asVar doB, s =>
    match resolve (.vStr items) s.ctx with
    | .vArr xs =>
      match execIter A f asVar doB xs s with
      | (.ok false, s') => (.ok false, { s' with ctx := objDel s'.ctx asVar })
      | (.ok true, s') => (.ok false, s')
      | (.thrown e, s') => (.thrown e, s')
      | (.fuelOut, s') => (.fuelOut, s')
    | _ => (.ok false, s)
  | f + 1, .parallel branches, s =>
    match execBranches A f branches none s with
    | (.ok _, s') => (.ok false, s')
    | (.thrown e, s') => (.thrown e, s')
    | (.fuelOut, s') => (.fuelOut, s')
  | f + 1, .tryc tryB catchB errorVar, s =>
    match execSeq A f tryB s with
    | (.ok _, s') => (.ok false, s')
    | (.fuelOut, s') => (.fuelOut, s')
    | (.thrown e, s') =>
      match execSeq A f catchB { s' with ctx := bindError errorVar e s'.ctx } with
      | (.ok _, s2) => (.ok false, s2)
      | (.thrown e2, s2) => (.thrown e2, s2)
      | (.fuelOut, s2) => (.fuelOut, s2)
  | _ + 1, .ret status body, s => executeReturn status body s

/-- Walking a node list as the `for … { if (await executeNode(n)) return; }`
loops of the helper methods do: stop at the first early-termination or
thrown error. -/
def execSeq (A : ActionTable) : Nat → List FlowNode → St → NodeRes × St
  | _, [], s => (.ok false, s)
  | 0, _ :: _, s => (.fuelOut, s)
  | f + 1, n :: ns, s =>
    match execNode A f n s with
    | (.ok true, s') => (.ok true, s')
    | (.ok false, s') => execSeq A f ns s'
    | (.thrown e, s') => (.thrown e, s')
    | (.fuelOut, s') => (.fuelOut, s')

/-- The item loop of `executeForEach`: bind `context[as]` to the current
element, walk `do`; early-termination and thrown errors exit the loop
without the final `delete context[as]`. -/
def execIter (A : ActionTable) : Nat → String → List FlowNode → List Value → St → NodeRes × St
  | _, _, _, [], s => (.ok false, s)
  | 0, _, _, _ :: _, s => (.fuelOut, s)
  | f + 1, asVar, doB, item :: restItems, s =>
    let s1 := { s with ctx := objSet s.ctx asVar item }
    match execSeq A f doB s1 with
    | (.ok true, s2) => (.ok true, s2)
    | (.ok false, s2) => execIter A f asVar doB restItems s2
    | (.thrown e, s2) => (.thrown e, s2)
    | (.fuelOut, s2) => (.fuelOut, s2)

/-- The branches of `executeParallel`, modelled on the deterministic
schedule that runs them in order over the shared context (`Promise.all`
lets every branch run; the first rejection is the one reported). -/
def execBranches (A : ActionTable) : Nat → List (List FlowNode) → Option String → St → NodeRes × St
  | _, [], none, s => (.ok false, s)
  | _, [], some e, s => (.thrown e, s)
  | 0, _ :: _, _, s => (.fuelOut, s)
  | f + 1, b :: bs, firstErr, s =>
    match execSeq A f b s with
    | (.thrown e, s') =>
      execBranches A f bs (match firstErr with | some e0 => some e0 | none => some e) s'
    | (.ok _, s') => execBranches A f bs firstErr s'
    | (.fuelOut, s') => (.fuelOut, s')
end

/-- The walk of `flux.flow` inside `executeFlux`: stop on early-termination
(`shouldReturn`) or once `res.headersSent` is observed. -/
def execFlowLoop (A : ActionTable) : Nat → List FlowNode → St → NodeRes × St
  | _, [], s => (.ok false, s)
  | 0, _ :: _, s => (.fuelOut, s)
  | f + 1, n :: ns, s =>
    match execNode A f n s with
    | (.ok true, s') => (.ok true, s')
    | (.ok false, s') => if s'.resp.sent then (.ok false, s') else execFlowLoop A f ns s'
    | (.thrown e, s') => (.thrown e, s')
    | (.fuelOut, s') => (.fuelOut, s')

/-- The `200 {success:true}` tail body of `executeFlux`. -/
def successBody : Value := .vObj [("success", .vBool true)]

/-- The `500 {error:"Internal server error"}` body of the outermost catch. -/
def errorBody : Value := .vObj [("error", .vStr "Internal server error")]

/-- `FluxExecutor.executeFlux`: walk the flow, then write `200
{success:true}` when no response was written, and catch every escaped
failure, writing `500 {error:"Internal server error"}` when no response was
written yet and swallowing it otherwise.  `none` is the out-of-fuel
artefact of the embedding. -/
def executeFlux (A : ActionTable) (fuel : Nat) (flow : List FlowNode) (s : St) : Option St :=
  match execFlowLoop A fuel flow s with
  | (.fuelOut, _) => none
  | (.ok _, s') =>
    some (if s'.resp.sent then s'
          else { s' with resp := { sent := true, writes := s'.resp.writes ++ [(200, successBody)] } })
  | (.thrown _, s') =>
    some (if s'.resp.sent then s'
          else { s' with resp := { sent := true, writes := s'.resp.writes ++ [(500, errorBody)] } })

/-! ## The condition evaluator (`Interpolator.evaluateCondition`)

The source builds a JS function from the condition string
(`new Function('__vars', "return (…);")`) after replacing each `${path}`
with a reference to a slot holding the looked-up raw value, and falls back
to truthiness of `resolve(expr)` when evaluation fails.  A full JS `eval`
is not shallowly embeddable; the evaluator below is *modelled from the
spec*: the grammar of §4.3 (comparison `===`, `!==`, `>`, `>=`, `<`, `<=`;
logical `!`, `&&`, `||`; grouping; number / quoted-string / `true` /
`false` / `null` literals; pre-resolved holes), with JS semantics for the
operators on the modelled values (strict equality is structural on
primitives and false on object/array references; relational compares
numbers with numbers and strings with strings).  Inputs outside this
grammar take the source's fallback branch. -/

/-- A character-or-hole unit: the condition string after the regex pass
that replaces each `${path}` by a slot holding the looked-up value. -/
inductive CU where
  | ch (c : Char)
  | hole (v : Value)
deriving Repr

/-- The `expression.replace(/\$\{([^}]+)\}/g, …)` pass of
`evaluateCondition`: emit each `${path}` as a hole carrying
`getValueByPath(path, context)`, copy other characters (fuel = input
length). -/
def scanCond (ctx : Ctx) : Nat → List Char → List CU
  | _, [] => []
  | 0, l => l.map .ch
  | f + 1, '$' :: '{' :: rest =>
    match takeInner rest with
    | some (content, rest') =>
      .hole (getValueByPath (String.mk content) ctx) :: scanCond ctx f rest'
    | none => .ch '$' :: scanCond ctx f ('{' :: rest)
  | f + 1, c :: rest => .ch c :: scanCond ctx f rest

/-- Tokens of the condition grammar. -/
inductive Tok where
  | hole (v : Value)
  | num (n : Nat)
  | str (s : String)
  | kTrue
  | kFalse
  | kNull
  | andT
  | orT
  | notT
  | eq3
  | ne3
  | ltT
  | leT
  | gtT
  | geT
  | lparen
  | rparen
deriving Repr

/-- Take a run of decimal digits from the unit stream. -/
def takeDigits : List CU → List Char × List CU
  | .ch c :: rest =>
    if c.isDigit then
      let (ds, rest') := takeDigits rest
      (c :: ds, rest')
    else ([], .ch c :: rest)
  | l => ([], l)

/-- Take a run of identifier characters from the unit stream. -/
def takeIdent : List CU → List Char × List CU
  | .ch c :: rest =>
    if c.isAlpha then
      let (ds, rest') := takeIdent rest
      (c :: ds, rest')
    else ([], .ch c :: rest)
  | l => ([], l)

/-- Take a quoted string literal body up to the closing quote. -/
def takeQuoted (q : Char) : List CU → Option (List Char × List CU)
  | .ch c :: rest =>
    if c = q then some ([], rest)
    else match takeQuoted q rest with
      | some (cs, rest') => some (c :: cs, rest')
      | none => none
  | _ => none

/-- Tokenize the unit stream; `none` is a lexical error, which sends
`evaluateCondition` into its fallback branch (fuel = stream length). -/
def lexCU : Nat → List CU → Option (List Tok)
  | _, [] => some []
  | 0, _ => none
  | f + 1, .hole v :: rest => do pure (.hole v :: (← lexCU f rest))
  | f + 1, .ch c :: rest =>
    if c = ' ' then lexCU f rest
    else if c = '(' then do pure (.lparen :: (← lexCU f rest))
    else if c = ')' then do pure (.rparen :: (← lexCU f rest))
    else if c = '=' then
      match rest with
      | .ch '=' :: .ch '=' :: rest' => do pure (.eq3 :: (← lexCU f rest'))
      | _ => none
    else if c = '!' then
      match rest with
      | .ch '=' :: .ch '=' :: rest' => do pure (.ne3 :: (← lexCU f rest'))
      | _ => do pure (.notT :: (← lexCU f rest))
    else if c = '&' then
      match rest with
      | .ch '&' :: rest' => do pure (.andT :: (← lexCU f rest'))
      | _ => none
    else if c = '|' then
      match rest with
      | .ch '|' :: rest' => do pure (.orT :: (← lexCU f rest'))
      | _ => none
    else if c = '>' then
      match rest with
      | .ch '=' :: rest' => do pure (.geT :: (← lexCU f rest'))
      | _ => do pure (.gtT :: (← lexCU f rest))
    else if c = '<' then
      match rest with
      | .ch '=' :: rest' => do pure (.leT :: (← lexCU f rest'))
      | _ => do pure (.ltT :: (← lexCU f rest))
    else if c.isDigit then
      match takeDigits (.ch c :: rest) with
      | (ds, rest') =>
        match digitsToNat 0 ds with
        | some n => do pure (.num n :: (← lexCU f rest'))
        | none => none
    else if c = '\'' ∨ c = '"' then
      match takeQuoted c rest with
      | some (cs, rest') => do pure (.str (String.mk cs) :: (← lexCU f rest'))
      | none => none
    else if c.isAlpha then
      match takeIdent (.ch c :: rest) with
      | (cs, rest') =>
        if String.mk cs = "true" then do pure (.kTrue :: (← lexCU f rest'))
        else if String.mk cs = "false" then do pure (.kFalse :: (← lexCU f rest'))
        else if String.mk cs = "null" then do pure (.kNull :: (← lexCU f rest'))
        else none
    else none

/-- JS `a || b` (value of the first truthy operand). -/
def jsOr (a b : Value) : Value := if truthy a then a else b

/-- JS `a && b`. -/
def jsAnd (a b : Value) : Value := if truthy a then b else a

/-- JS `!a`. -/
def jsNot (a : Value) : Value := .vBool (!truthy a)

/-- JS strict equality `===` on the modelled values: structural on
primitives; `false` between distinct object/array references (the model
compares no references). -/
def jsStrictEq : Value → Value → Bool
  | .vUndefined, .vUndefined => true
  | .vNull, .vNull => true
  | .vBool a, .vBool b => a == b
  | .vNum a, .vNum b => a == b
  | .vStr a, .vStr b => a == b
  | _, _ => false

/-- JS relational comparison: number with number, string with string
(lexicographic); anything else compares false (the model performs no
coercion). -/
def jsLt : Value → Value → Bool
  | .vNum a, .vNum b => a < b
  | .vStr a, .vStr b => a < b
  | _, _ => false

/-- `a <= b` as `a < b` or `a === b` on comparable values. -/
def jsLe (a b : Value) : Bool := jsLt a b || jsStrictEq a b

/-- Apply a comparison token. -/
def applyCmp (op : Tok) (a b : Value) : Value :=
  match op with
  | .eq3 => .vBool (jsStrictEq a b)
  | .ne3 => .vBool (!jsStrictEq a b)
  | .ltT => .vBool (jsLt a b)
  | .leT => .vBool (jsLe a b)
  | .gtT => .vBool (jsLt b a)
  | .geT => .vBool (jsLe b a)
  | _ => .vUndefined

mutual
/-- `expr := or` of the condition grammar (fuel-indexed recursive
descent). -/
def parseOr : Nat → List Tok → Option (Value × List Tok)
  | 0, _ => none
  | f + 1, ts => do
    let (a, ts1) ← parseAnd f ts
    parseOrRest f a ts1

/-- `("||" and)*`. -/
def parseOrRest : Nat → Value → List Tok → Option (Value × List Tok)
  | 0, _, _ => none
  | f + 1, a, .orT :: ts => do
    let (b, ts1) ← parseAnd f ts
    parseOrRest f (jsOr a b) ts1
  | _ + 1, a, ts => some (a, ts)

/-- `and := not ("&&" not)*`. -/
def parseAnd : Nat → List Tok → Option (Value × List Tok)
  | 0, _ => none
  | f + 1, ts => do
    let (a, ts1) ← parseNot f ts
    parseAndRest f a ts1

/-- `("&&" not)*`. -/
def parseAndRest : Nat → Value → List Tok → Option (Value × List Tok)
  | 0, _, _ => none
  | f + 1, a, .andT :: ts => do
    let (b, ts1) ← parseNot f ts
    parseAndRest f (jsAnd a b) ts1
  | _ + 1, a, ts => some (a, ts)

/-- `not := "!"* cmp`. -/
def parseNot : Nat → List Tok → Option (Value × List Tok)
  | 0, _ => none
  | f + 1, .notT :: ts => do
    let (a, ts1) ← parseNot f ts
    pure (jsNot a, ts1)
  | f + 1, ts => parseCmp f ts

/-- `cmp := atom (op atom)?`. -/
def parseCmp : Nat → List Tok → Option (Value × List Tok)
  | 0, _ => none
  | f + 1, ts => do
    let (a, ts1) ← parseAtom f ts
    match ts1 with
    | op :: ts2 =>
      match op with
      | .eq3 | .ne3 | .ltT | .leT | .gtT | .geT => do
        let (b, ts3) ← parseAtom f ts2
        pure (applyCmp op a b, ts3)
      | _ => pure (a, ts1)
    | [] => pure (a, ts1)

/-- `atom := literal | hole | "(" expr ")"`. -/
def parseAtom : Nat → List Tok → Option (Value × List Tok)
  | 0, _ => none
  | f + 1, ts =>
    match ts with
    | .hole v :: ts1 => some (v, ts1)
    | .num n :: ts1 => some (.vNum n, ts1)
    | .str s :: ts1 => some (.vStr s, ts1)
    | .kTrue :: ts1 => some (.vBool true, ts1)
    | .kFalse :: ts1 => some (.vBool false, ts1)
    | .kNull :: ts1 => some (.vNull, ts1)
    | .lparen :: ts1 => do
      let (v, ts2) ← parseOr f ts1
      match ts2 with
      | .rparen :: ts3 => pure (v, ts3)
      | _ => none
    | _ => none
end

/-- Modelled from the spec: `Interpolator.evaluateCondition(expr, ctx)` —
the source's `new Function` evaluation of the hole-substituted condition
string (full JS `eval` semantics are not embeddable; the spec's §4.3
grammar stands in for them).  Empty expressions are false; a lexical or
syntactic failure takes the source's catch branch: truthiness of
`resolve(expr, ctx)`. -/
def evaluateCondition (expr : String) (ctx : Ctx) : Bool :=
  if expr = "" then false
  else
    let cus := scanCond ctx expr.toList.length expr.toList
    match lexCU cus.length cus with
    | none => truthy (resolve (.vStr expr) ctx)
    | some toks =>
      match parseOr (5 * (toks.length + 1)) toks with
      | some (v, []) => truthy v
      | _ => truthy (resolve (.vStr expr) ctx)

/-! ## Plugin injection (modelled)

`src/core/server.ts` (`registerEndpoint`, lines 96–120) initialises
`context.plugins = {}` and constructs the executor as
`new FluxExecutor(this.config, this.loader, this.plugins)` — a three-
argument constructor, while the `executor.ts` present in the tree declares
only two parameters and never touches `context.plugins`; the plugin-aware
executor revision is missing from the tree and only its caller and the
`IPlugin` port (`getClient(): any`) are present. -/

/-- Modelled from the spec: the plugin-injection prologue of the missing
plugin-aware `FluxExecutor.executeFlux` — "Before executing a flow, the
executor copies `name → getClient()` into `context.plugins`."  `reg` maps
each registered plugin name to the client its `getClient()` exposes. -/
def injectPlugins (reg : List (String × Value)) (ctx : Ctx) : Ctx :=
  let base :=
    match objGet ctx "plugins" with
    | some (.vObj kvs) => kvs
    | _ => []
  objSet ctx "plugins" (.vObj (reg.foldl (fun acc p => objSet acc p.1 p.2) base))

/-- Modelled from the spec: the plugin-aware `executeFlux` = inject the
plugin clients, then run the flow walk of the executor in the tree. -/
def executeFluxWithPlugins (A : ActionTable) (fuel : Nat) (flow : List FlowNode)
    (reg : List (String × Value)) (s : St) : Option St :=
  executeFlux A fuel flow { s with ctx := injectPlugins reg s.ctx }

/-! ## The validator (`src/core/validator.ts`) and loader (`src/core/loader.ts`)

`FluxValidator.validate` compiles the flux JSON schema with
`new Ajv({ allErrors: true })` and maps each Ajv error to the string
`` `${e.instancePath} ${e.message}` ``.  The checker below models the
evaluation of that schema: errors carry the Ajv `instancePath` (a JSON
pointer such as `/flow/0`) and a message, and every violation is collected
(`allErrors`); the exact Ajv message wording is abbreviated. -/

/-- One validation error: `instancePath` and human message, rendered by the
source as `` `${path} ${message}` ``. -/
def vErr (path msg : String) : String := path ++ " " ++ msg

/-- Check a mandatory string field of a node. -/
def reqStringField (kvs : Obj) (path field : String) : List String :=
  match objGet kvs field with
  | some (.vStr _) => []
  | some _ => [vErr (path ++ "/" ++ field) "must be string"]
  | none => [vErr path ("must have required property '" ++ field ++ "'")]

/-- The seven allowed HTTP verbs of the schema's `method` enum. -/
def allowedMethods : List String :=
  ["GET", "POST", "PUT", "DELETE", "PATCH", "OPTIONS", "HEAD"]

mutual
/-- Validate one flow node against the schema's `flowNode` `oneOf` (fuel =
size of the value). -/
def validateNode : Nat → String → Value → List String
  | 0, _, _ => []
  | f + 1, path, v =>
    match v with
    | .vObj kvs =>
      match objGet kvs "type" with
      | some (.vStr "action") =>
        reqStringField kvs path "name" ++ reqStringField kvs path "path"
      | some (.vStr "condition") =>
        reqStringField kvs path "if" ++
        reqNodeArray f kvs path "then" true ++
        reqNodeArray f kvs path "else" false
      | some (.vStr "forEach") =>
        reqStringField kvs path "items" ++ reqStringField kvs path "as" ++
        reqNodeArray f kvs path "do" true
      | some (.vStr "parallel") =>
        (match objGet kvs "branches" with
         | some (.vArr bs) => validateBranches f (path ++ "/branches") 0 bs
         | some _ => [vErr (path ++ "/branches") "must be array"]
         | none => [vErr path "must have required property 'branches'"])
      | some (.vStr "try") =>
        reqNodeArray f kvs path "try" true ++ reqNodeArray f kvs path "catch" true
      | some (.vStr "return") =>
        (match objGet kvs "body" with
         | some _ => []
         | none => [vErr path "must have required property 'body'"])
      | _ => [vErr path "must match exactly one schema in oneOf"]
    | _ => [vErr path "must be object"]

/-- Check a child node-array field (`then`, `else`, `do`, `try`, `catch`). -/
def reqNodeArray : Nat → Obj → String → String → Bool → List String
  | 0, _, _, _, _ => []
  | f + 1, kvs, path, field, required =>
    match objGet kvs field with
    | some (.vArr xs) => validateNodes f (path ++ "/" ++ field) 0 xs
    | some _ => [vErr (path ++ "/" ++ field) "must be array"]
    | none =>
      if required then [vErr path ("must have required property '" ++ field ++ "'")] else []

/-- Validate the elements of a node array, numbering them from `i`. -/
def validateNodes : Nat → String → Nat → List Value → List String
  | 0, _, _, _ => []
  | _ + 1, _, _, [] => []
  | f + 1, path, i, x :: rest =>
    validateNode f (path ++ "/" ++ Nat.repr i) x ++ validateNodes f path (i + 1) rest

/-- Validate the branch arrays of a `parallel` node. -/
def validateBranches : Nat → String → Nat → List Value → List String
  | 0, _, _, _ => []
  | _ + 1, _, _, [] => []
  | f + 1, path, i, b :: rest =>
    (match b with
     | .vArr xs => validateNodes f (path ++ "/" ++ Nat.repr i) 0 xs
     | _ => [vErr (path ++ "/" ++ Nat.repr i) "must be array"]) ++
    validateBranches f path (i + 1) rest
end

/-- The result record of `FluxValidator.validate`. -/
structure ValidationResult where
  valid : Bool
  errors : List String
deriving Repr, DecidableEq

/-- `FluxValidator.validate(definition)`: the top-level schema requires
`endpoint` (string), `method` (one of seven verbs) and `flow` (array of
flow nodes); `description` is optional; extra keys are tolerated; `valid`
iff no error was collected. -/
def validate (d : Value) : ValidationResult :=
  match d with
  | .vObj kvs =>
    let es :=
      reqStringField kvs "" "endpoint" ++
      (match objGet kvs "method" with
       | some (.vStr m) =>
         if m ∈ allowedMethods then []
         else [vErr "/method" "must be equal to one of the allowed values"]
       | some _ => [vErr "/method" "must be string"]
       | none => [vErr "" "must have required property 'method'"]) ++
      (match objGet kvs "flow" with
       | some (.vArr xs) => validateNodes (10 * valueSize (.vArr xs) + 10) "/flow" 0 xs
       | some _ => [vErr "/flow" "must be array"]
       | none => [vErr "" "must have required property 'flow'"])
    { valid := es.isEmpty, errors := es }
  | _ => { valid := false, errors := [vErr "" "must be object"] }

/-- `FluxLoader.loadFluxDefinitions` over already-parsed files: keep the
definitions that validate, collect `{file, errors}` entries for the rest
(`fluxErrors`); `FluxServer.start` registers exactly the kept
definitions. -/
def loadFluxDefinitions (files : List (String × Value)) :
    List Value × List (String × List String) :=
  match files with
  | [] => ([], [])
  | (name, d) :: rest =>
    if (validate d).valid then
      (d :: (loadFluxDefinitions rest).1, (loadFluxDefinitions rest).2)
    else
      ((loadFluxDefinitions rest).1, (name, (validate d).errors) :: (loadFluxDefinitions rest).2)

/-! ### C10 — round-trip identity of interpolation

`JSON.stringify`/`JSON.parse` are the JS runtime's serializer and parser,
not repository code; they are modelled below over the same `Value` type
(`serialize` following `JSON.stringify`'s output format — escapes for `"`,
`\`, the short control escapes and `\u00xx`, no whitespace — and
`parseJson` a parser of that format). -/

/-- `k` does not occur among the keys of the tail — a JS object never holds
two properties with the same name. -/
def keyFresh (k : String) : List (String × Value) → Bool
  | [] => true
  | (k', _) :: rest => (k' != k) && keyFresh k rest

mutual
/-- The claim's hypothesis: a JSON-representable value (no `undefined`,
object keys unique, as JS objects are) none of whose strings contains the
`"${"` sequence. -/
def jsonTemplateFree : Value → Bool
  | .vUndefined => false
  | .vNull => true
  | .vBool _ => true
  | .vNum _ => true
  | .vStr s => !hasDollarBrace s.toList
  | .vArr xs => jsonTemplateFreeList xs
  | .vObj kvs => jsonTemplateFreeObj kvs

/-- `jsonTemplateFree` over array elements. -/
def jsonTemplateFreeList : List Value → Bool
  | [] => true
  | x :: rest => jsonTemplateFree x && jsonTemplateFreeList rest

/-- `jsonTemplateFree` over object members. -/
def jsonTemplateFreeObj : List (String × Value) → Bool
  | [] => true
  | (k, v) :: rest => keyFresh k rest && jsonTemplateFree v && jsonTemplateFreeObj rest
end

/-- Lower-case hexadecimal digit, as `JSON.stringify` emits in `\u00xx`. -/
def hexDigitChar (n : Nat) : Char :=
  if n < 10 then Char.ofNat (48 + n) else Char.ofNat (87 + n)

/-- `JSON.stringify`'s escaping of one string character: `\"`, `\\`, the
short control escapes, `\u00xx` for other control characters, everything
else verbatim. -/
def escapeChar (c : Char) : List Char :=
  if c = '"' then ['\\', '"']
  else if c = '\\' then ['\\', '\\']
  else if c = '\x08' then ['\\', 'b']
  else if c = '\x09' then ['\\', 't']
  else if c = '\x0a' then ['\\', 'n']
  else if c = '\x0c' then ['\\', 'f']
  else if c = '\x0d' then ['\\', 'r']
  else if c.toNat < 32 then
    ['\\', 'u', '0', '0', hexDigitChar (c.toNat / 16), hexDigitChar (c.toNat % 16)]
  else [c]

/-- Escape a whole string body. -/
def escapeStr : List Char → List Char
  | [] => []
  | c :: rest => escapeChar c ++ escapeStr rest

/-- Decimal digits of a natural number, most significant first (fuel ≥ the
number suffices: the argument strictly shrinks at each step). -/
def natToCharsF : Nat → Nat → List Char
  | 0, _ => []
  | f + 1, n =>
    if n < 10 then [Char.ofNat (48 + n)]
    else natToCharsF f (n / 10) ++ [Char.ofNat (48 + n % 10)]

/-- Decimal digits of a natural number, most significant first. -/
def natToChars (n : Nat) : List Char := natToCharsF (n + 1) n

/-- `String(number)` for the integers of the model. -/
def intToChars : Int → List Char
  | .ofNat n => natToChars n
  | .negSucc m => '-' :: natToChars (m + 1)

mutual
/-- `JSON.stringify` (no whitespace), over the model's values.
`JSON.stringify(undefined)` has no JSON text; the `vUndefined` case (excluded
by `jsonTemplateFree`) is rendered as `null`, its in-array rendering. -/
def serialize : Value → List Char
  | .vUndefined => ['n', 'u', 'l', 'l']
  | .vNull => ['n', 'u', 'l', 'l']
  | .vBool true => ['t', 'r', 'u', 'e']
  | .vBool false => ['f', 'a', 'l', 's', 'e']
  | .vNum n => intToChars n
  | .vStr s => '"' :: escapeStr s.data ++ '"' :: []
  | .vArr xs => '[' :: serializeArr xs ++ ']' :: []
  | .vObj kvs => '{' :: serializeObj kvs ++ '}' :: []

/-- Array elements, comma-separated. -/
def serializeArr : List Value → List Char
  | [] => []
  | x :: rest => serialize x ++ serializeArrSep rest

/-- The `"," element` tail of an array. -/
def serializeArrSep : List Value → List Char
  | [] => []
  | x :: rest => ',' :: serialize x ++ serializeArrSep rest

/-- One `"key":value` member. -/
def serializeMember : String × Value → List Char
  | (k, v) => '"' :: escapeStr k.data ++ '"' :: ':' :: serialize v

/-- Object members, comma-separated. -/
def serializeObj : List (String × Value) → List Char
  | [] => []
  | kv :: rest => serializeMember kv ++ serializeObjSep rest

/-- The `"," member` tail of an object. -/
def serializeObjSep : List (String × Value) → List Char
  | [] => []
  | kv :: rest => ',' :: serializeMember kv ++ serializeObjSep rest
end

/-- Hexadecimal digit value (`JSON.parse` accepts both cases). -/
def hexVal (c : Char) : Option Nat :=
  if c.isDigit then some (c.toNat - 48)
  else if 'a' ≤ c ∧ c ≤ 'f' then some (c.toNat - 87)
  else if 'A' ≤ c ∧ c ≤ 'F' then some (c.toNat - 55)
  else none

/-- Prepend a decoded character to a string-body parse. -/
def consChar (c : Char) : Option (List Char × List Char) → Option (List Char × List Char)
  | some (cs, r) => some (c :: cs, r)
  | none => none

/-- Decode the escape sequence following a backslash: the decoded character
and the remaining input. -/
def unescape1 : List Char → Option (Char × List Char)
  | '"' :: r => some ('"', r)
  | '\\' :: r => some ('\\', r)
  | '/' :: r => some ('/', r)
  | 'b' :: r => some ('\x08', r)
  | 't' :: r => some ('\x09', r)
  | 'n' :: r => some ('\x0a', r)
  | 'f' :: r => some ('\x0c', r)
  | 'r' :: r => some ('\x0d', r)
  | 'u' :: h1 :: h2 :: h3 :: h4 :: r =>
    (match hexVal h1, hexVal h2, hexVal h3, hexVal h4 with
     | some a, some b, some c, some d =>
       some (Char.ofNat (((a * 16 + b) * 16 + c) * 16 + d), r)
     | _, _, _, _ => none)
  | _ => none

/-- Parse a JSON string body up to its closing quote, decoding escapes
(fuel ≥ body length suffices: every step consumes input). -/
def parseStrBody : Nat → List Char → Option (List Char × List Char)
  | 0, _ => none
  | _ + 1, [] => none
  | f + 1, c :: r =>
    if c = '"' then some ([], r)
    else if c = '\\' then
      match unescape1 r with
      | some (d, r1) => consChar d (parseStrBody f r1)
      | none => none
    else consChar c (parseStrBody f r)

/-- Parse a run of decimal digits. -/
def parseNat (l : List Char) : Option (Nat × List Char) :=
  match l.takeWhile Char.isDigit with
  | [] => none
  | ds =>
    match digitsToNat 0 ds with
    | some n => some (n, l.dropWhile Char.isDigit)
    | none => none

mutual
/-- A recursive-descent JSON parser over the serializer's output format
(fuel bounds the recursion of the embedding only). -/
def parseJ : Nat → List Char → Option (Value × List Char)
  | 0, _ => none
  | _ + 1, [] => none
  | f + 1, c :: r =>
    if c = 'n' then
      match r with
      | 'u' :: 'l' :: 'l' :: r1 => some (.vNull, r1)
      | _ => none
    else if c = 't' then
      match r with
      | 'r' :: 'u' :: 'e' :: r1 => some (.vBool true, r1)
      | _ => none
    else if c = 'f' then
      match r with
      | 'a' :: 'l' :: 's' :: 'e' :: r1 => some (.vBool false, r1)
      | _ => none
    else if c = '"' then
      match parseStrBody (r.length + 1) r with
      | some (cs, r1) => some (.vStr (String.mk cs), r1)
      | none => none
    else if c = '[' then
      match r with
      | [] => none
      | c1 :: r1 =>
        if c1 = ']' then some (.vArr [], r1)
        else
          match parseJ f (c1 :: r1) with
          | some (v, r2) =>
            (match parseArrSep f r2 with
             | some (vs, r3) => some (.vArr (v :: vs), r3)
             | none => none)
          | none => none
    else if c = '{' then
      match r with
      | [] => none
      | c1 :: r1 =>
        if c1 = '}' then some (.vObj [], r1)
        else
          match parseMember f (c1 :: r1) with
          | some (kv, r2) =>
            (match parseObjSep f r2 with
             | some (kvs, r3) => some (.vObj (kv :: kvs), r3)
             | none => none)
          | none => none
    else if c = '-' then
      match parseNat r with
      | some (n, r1) => some (.vNum (-(n : Int)), r1)
      | none => none
    else if c.isDigit then
      match parseNat (c :: r) with
      | some (n, r1) => some (.vNum (n : Int), r1)
      | none => none
    else none

/-- Parse the `"," element … "]"` tail of an array. -/
def parseArrSep : Nat → List Char → Option (List Value × List Char)
  | 0, _ => none
  | _ + 1, ']' :: r => some ([], r)
  | f + 1, ',' :: r =>
    (match parseJ f r with
     | some (v, r1) =>
       (match parseArrSep f r1 with
        | some (vs, r2) => some (v :: vs, r2)
        | none => none)
     | none => none)
  | _ + 1, _ => none

/-- Parse one `"key":value` member. -/
def parseMember : Nat → List Char → Option ((String × Value) × List Char)
  | 0, _ => none
  | f + 1, '"' :: r =>
    (match parseStrBody (r.length + 1) r with
     | some (cs, r1) =>
       (match r1 with
        | ':' :: r2 =>
          (match parseJ f r2 with
           | some (v, r3) => some ((String.mk cs, v), r3)
           | none => none)
        | _ => none)
     | none => none)
  | _ + 1, _ => none

/-- Parse the `"," member … "}"` tail of an object. -/
def parseObjSep : Nat → List Char → Option (List (String × Value) × List Char)
  | 0, _ => none
  | _ + 1, '}' :: r => some ([], r)
  | f + 1, ',' :: r =>
    (match parseMember f r with
     | some (kv, r1) =>
       (match parseObjSep f r1 with
        | some (kvs, r2) => some (kv :: kvs, r2)
        | none => none)
     | none => none)
  | _ + 1, _ => none
end

/-- `JSON.parse`: parse the whole text, requiring all input consumed (the
fuel bounds only the recursion of the embedding; twice the input length
plus two covers every parse that can succeed). -/
def parseJson (s : String) : Option Value :=
  match parseJ (2 * s.length + 2) s.data with
  | some (v, []) => some v
  | _ => none

/-- `true` when the list does not start with a decimal digit — the shape of
the input remaining after a serialized number. -/
def notDigitStart : List Char → Bool
  | [] => true
  | c :: _ => !c.isDigit

mutual
/-- Fuel sufficient for `parseJ` on the serialization of `x`. -/
def pfuel : Value → Nat
  | .vArr xs => 1 + pfuelList xs
  | .vObj kvs => 1 + pfuelObj kvs
  | _ => 1

/-- Fuel sufficient for `parseArrSep` on a serialized array tail. -/
def pfuelList : List Value → Nat
  | [] => 1
  | x :: xs => 1 + pfuel x + pfuelList xs

/-- Fuel sufficient for `parseObjSep` on a serialized object tail. -/
def pfuelObj : List (String × Value) → Nat
  | [] => 1
  | (_, v) :: kvs => 1 + pfuel v + pfuelObj kvs
end

/-! ## Helper lemmas -/

theorem objGet_objSet_self (kvs : Obj) (k : String) (v : Value) :
    objGet (objSet kvs k v) k = some v := by
  induction kvs with
  | nil => simp [objSet, objGet]
  | cons kv rest ih =>
    by_cases h : kv.1 = k
    · simp [objSet, objGet, h]
    · simp [objSet, objGet, h, ih]

theorem objGet_objSet_ne (kvs : Obj) {k' k : String} (v : Value) (h : k' ≠ k) :
    objGet (objSet kvs k' v) k = objGet kvs k := by
  induction kvs with
  | nil => simp [objSet, objGet, h]
  | cons kv rest ih =>
    obtain ⟨a, b⟩ := kv
    by_cases h2 : a = k'
    · subst h2
      simp [objSet, objGet, h]
    · by_cases h3 : a = k
      · simp [objSet, objGet, h2, h3, Ne.symm h]
      · simp [objSet, objGet, h2, h3, ih]

theorem objGet_objDel_self (kvs : Obj) (k : String) :
    objGet (objDel kvs k) k = none := by
  induction kvs with
  | nil => simp [objDel, objGet]
  | cons kv rest ih =>
    by_cases h : kv.1 = k
    · simp [objDel, h, ih]
    · simp [objDel, objGet, h, ih]

theorem objGet_objDel_ne (kvs : Obj) {k' k : String} (h : k' ≠ k) :
    objGet (objDel kvs k') k = objGet kvs k := by
  induction kvs with
  | nil => simp [objDel, objGet]
  | cons kv rest ih =>
    obtain ⟨a, b⟩ := kv
    by_cases h2 : a = k'
    · subst h2
      simp [objDel, objGet, h, ih]
    · by_cases h3 : a = k
      · simp [objDel, objGet, h2, h3, Ne.symm h]
      · simp [objDel, objGet, h2, h3, ih]

/-- `ret` is the only early-terminating node tag. -/
def isRet : FlowNode → Bool
  | .ret _ _ => true
  | _ => false

/-- How `executeNode` wraps the walk of a child node list performed by
`executeCondition`: a finished walk (early-terminated or not) yields
`false`, exceptions and fuel exhaustion propagate. -/
def condWrap : NodeRes × St → NodeRes × St
  | (.ok _, s) => (.ok false, s)
  | r => r

/-- `ctx.results[n]` as read through the context. -/
def resultsGet (ctx : Ctx) (n : String) : Option Value :=
  match objGet ctx "results" with
  | some (.vObj rk) => objGet rk n
  | _ => none

/-! ### Shared concrete fixtures -/

/-- An action table with no registered actions. -/
def tableEmpty : ActionTable := fun _ => none

/-- A fresh response handle: nothing sent. -/
def resp0 : Resp := { sent := false, writes := [] }

/-- A fresh state with an empty context. -/
def st0 : St := { ctx := [], resp := resp0 }

/-- A state binding `n = 0`, as in the spec's boundary examples. -/
def stN : St := { ctx := [("n", .vNum 0)], resp := resp0 }

/-- `executeAction` never signals early-termination. -/
theorem executeAction_not_early (A : ActionTable) (name path : String)
    (args : Option (List (String × Value))) (s : St) :
    (executeAction A name path args s).1 ≠ NodeRes.ok true := by
  unfold executeAction
  rcases hA : A path with _ | handler
  · simp
  · cases args with
    | none =>
      rcases hh : handler (objDel s.ctx "args") with ⟨e, ctx2⟩ | ⟨r, ctx2⟩
      · simp [hh]
      · rcases hres : objGet ctx2 "results" with _ | v
        · simp [hh, hres]
        · cases v <;> simp [hh, hres]
    | some kvs =>
      rcases hh : handler (objSet s.ctx "args" (.vObj (resolveObj kvs s.ctx))) with ⟨e, ctx2⟩ | ⟨r, ctx2⟩
      · simp [hh]
      · rcases hres : objGet ctx2 "results" with _ | v
        · simp [hh, hres]
        · cases v <;> simp [hh, hres]

theorem mk_toList (s : String) : String.mk s.toList = s := rfl

theorem toList_ne_nil {s : String} (h : s ≠ "") : s.toList ≠ [] := by
  intro hl
  apply h
  cases s with
  | mk data =>
    have h2 : data = [] := hl
    rw [h2]

theorem toList_wrap (path : String) :
    ("$\x7b" ++ path ++ "\x7d").toList = '$' :: '{' :: (path.toList ++ ['}']) := by
  show (("$\x7b" ++ path) ++ "\x7d").data = _
  rw [String.data_append, String.data_append]
  rfl

theorem takeWhile_append_brace {p : List Char} (h : ∀ c ∈ p, c ≠ '}') :
    (p ++ ['}']).takeWhile (· ≠ '}') = p ∧ (p ++ ['}']).dropWhile (· ≠ '}') = ['}'] := by
  induction p with
  | nil => simp
  | cons c rest ih =>
    have hc : c ≠ '}' := h c (by simp)
    have hr := ih (fun x hx => h x (by simp [hx]))
    simp only [ne_eq, decide_not] at hr
    simp only [List.cons_append, List.takeWhile_cons, List.dropWhile_cons]
    simp [hc, hr.1, hr.2]

theorem takeInner_wrap {p : List Char} (hne : p ≠ []) (h : ∀ c ∈ p, c ≠ '}') :
    takeInner (p ++ ['}']) = some (p, []) := by
  unfold takeInner
  obtain ⟨h1, h2⟩ := takeWhile_append_brace h
  simp only [h1, h2]
  simp [hne]

theorem fullExprPath_wrap (path : String) (hne : path ≠ "") (h : ∀ c ∈ path.toList, c ≠ '}') :
    fullExprPath ("$\x7b" ++ path ++ "\x7d") = some path := by
  unfold fullExprPath
  rw [toList_wrap]
  simp only [takeInner_wrap (toList_ne_nil hne) h]
  rw [mk_toList]

theorem hasDollarBrace_wrap (path : String) :
    hasDollarBrace (("$\x7b" ++ path ++ "\x7d").toList) = true := by
  rw [toList_wrap]
  rfl

/-- The full-expression branch of `resolve`, computed symbolically: a
string that is exactly `${path}` resolves to the raw looked-up value. -/
theorem resolve_fullExpr (path : String) (ctx : Ctx) (hne : path ≠ "")
    (h : ∀ c ∈ path.toList, c ≠ '}') :
    resolve (.vStr ("$\x7b" ++ path ++ "\x7d")) ctx = getValueByPath path ctx := by
  unfold resolve
  rw [hasDollarBrace_wrap]
  simp only [fullExprPath_wrap path hne h, if_true]

/-! ### C1 — early-termination propagation -/

/-- C1 counterexample: the claim says a Condition node that receives
`true` from a child must itself return `true` from `executeNode`; in the
code `executeCondition` returns `void` and the dispatcher returns `false`.
Here the child return node early-terminates (first conjunct) yet
`executeNode` on the enclosing condition returns `false` (second
conjunct). -/
theorem C1_counterexample :
    execNode tableEmpty 10 (.ret none (.vStr "T")) st0
      = (.ok true, { ctx := [], resp := { sent := true, writes := [(200, .vStr "T")] } }) ∧
    execNode tableEmpty 11 (.cond "x" [.ret none (.vStr "T")] none) st0
      = (.ok false, { ctx := [], resp := { sent := true, writes := [(200, .vStr "T")] } }) :=
  ⟨rfl, rfl⟩

/-- C1 (amended): `executeNode` returns `true` only for Return nodes; a
composite node that receives `true` from a child stops walking the child's
subsequent siblings (second conjunct: the walk stops at the early child,
leaving the state untouched by the siblings), but the composite node's own
`executeNode` call returns `false`, not `true`, to its caller. -/
theorem C1_early_termination :
    (∀ (f : Nat) (A : ActionTable) (n : FlowNode) (s : St),
        (execNode A f n s).1 = NodeRes.ok true → isRet n = true)
  ∧ (∀ (f : Nat) (A : ActionTable) (n : FlowNode) (ns : List FlowNode) (s s' : St),
        execNode A f n s = (.ok true, s') →
        execSeq A (f + 1) (n :: ns) s = (.ok true, s')) := by
  constructor
  · intro f A n s h
    match f with
    | 0 => simp [execNode] at h
    | f + 1 =>
      cases n with
      | action name path args =>
        simp only [execNode] at h
        exact absurd h (executeAction_not_early A name path args s)
      | cond ifE thenB elseB =>
        simp only [execNode] at h
        by_cases hc : truthy (resolve (.vStr ifE) s.ctx)
        · rw [if_pos hc] at h
          rcases hseq : execSeq A f thenB s with ⟨r, s2⟩
          rw [hseq] at h
          rcases r with e | msg | _ <;> simp at h
        · rw [if_neg hc] at h
          cases elseB with
          | none => simp at h
          | some els =>
            dsimp only at h
            rcases hseq : execSeq A f els s with ⟨r, s2⟩
            rw [hseq] at h
            rcases r with e | msg | _ <;> simp at h
      | forEach items asVar doB =>
        simp only [execNode] at h
        rcases hr : resolve (.vStr items) s.ctx with _ | _ | b | n | a | xs | kvs <;>
          rw [hr] at h <;> try simp at h
        rcases hit : execIter A f asVar doB xs s with ⟨r, s2⟩
        rw [hit] at h
        rcases r with e | msg | _
        · cases e <;> simp at h
        · simp at h
        · simp at h
      | parallel branches =>
        simp only [execNode] at h
        rcases hb : execBranches A f branches none s with ⟨r, s2⟩
        rw [hb] at h
        rcases r with e | msg | _ <;> simp at h
      | tryc tryB catchB errorVar =>
        simp only [execNode] at h
        rcases hseq : execSeq A f tryB s with ⟨r, s2⟩
        rw [hseq] at h
        rcases r with e | msg | _
        · simp at h
        · split at h <;> first
            | simp at h
            | (split at h <;> simp at h)
        · simp at h
      | ret status body => rfl
  · intro f A n ns s s' h
    simp [execSeq, h]

/-- `C1_early_termination` applied at a concrete return node and flow. -/
theorem C1_early_termination_witness :
    isRet (.ret none (.vStr "T")) = true ∧
    execSeq tableEmpty 11 [FlowNode.ret none (.vStr "T"), .action "a" "p" none] st0
      = (.ok true, { ctx := [], resp := { sent := true, writes := [(200, .vStr "T")] } }) :=
  ⟨C1_early_termination.1 10 tableEmpty (.ret none (.vStr "T")) st0 (by rfl),
   C1_early_termination.2 10 tableEmpty (.ret none (.vStr "T")) [.action "a" "p" none] st0
     { ctx := [], resp := { sent := true, writes := [(200, .vStr "T")] } } (by rfl)⟩

/-! ### C2 — how the executor decides a Condition branch -/

theorem scanCond_bare (path : String) (ctx : Ctx) (hne : path ≠ "")
    (h : ∀ c ∈ path.toList, c ≠ '}') (f : Nat) :
    scanCond ctx (f + 1) ('$' :: '{' :: (path.toList ++ ['}']))
      = [.hole (getValueByPath path ctx)] := by
  simp only [scanCond, takeInner_wrap (toList_ne_nil hne) h, mk_toList]

/-- `evaluateCondition` on a bare full-expression condition `${path}`
collapses to truthiness of the looked-up value. -/
theorem evalCond_bare (path : String) (ctx : Ctx) (hne : path ≠ "")
    (h : ∀ c ∈ path.toList, c ≠ '}') :
    evaluateCondition ("$\x7b" ++ path ++ "\x7d") ctx = truthy (getValueByPath path ctx) := by
  unfold evaluateCondition
  have hexp : ("$\x7b" ++ path ++ "\x7d") ≠ "" := by
    intro he
    have h2 := congrArg String.toList he
    rw [toList_wrap] at h2
    simp at h2
  rw [if_neg hexp, toList_wrap]
  have hlen : ('$' :: '{' :: (path.toList ++ ['}'])).length = (path.toList.length + 2) + 1 := by
    simp
  rw [hlen, scanCond_bare path ctx hne h]
  rfl

/-- C2 counterexample: the claim says the branch is decided by
`evaluateCondition`, and in particular that operator conditions such as
`"${n} === 1"` are evaluated as comparisons.  `evaluateCondition` is false
here (first conjunct), so per the claim the `else` branch must run; the
executor instead resolves the string to `"0 === 1"`, a truthy non-empty
string, and runs `then` (second conjunct: the `then` return body is the
one written). -/
theorem C2_counterexample :
    evaluateCondition "${n} === 1" [("n", .vNum 0)] = false ∧
    resolve (.vStr "${n} === 1") [("n", .vNum 0)] = .vStr "0 === 1" ∧
    execNode tableEmpty 11
        (.cond "${n} === 1" [.ret none (.vStr "T")] (some [.ret none (.vStr "E")])) stN
      = (.ok false, { ctx := [("n", .vNum 0)],
                      resp := { sent := true, writes := [(200, .vStr "T")] } }) :=
  ⟨rfl, rfl, rfl⟩

/-- C2 (amended): the executor decides the branch of a Condition node by
calling `resolve` on the `if` expression and branching on JS truthiness of
the result: it walks `then` when `resolve(if, ctx)` is truthy and `else`
(when present) otherwise.  For a bare `${path}` condition this coincides
with `evaluateCondition` (fourth conjunct); a condition string mixing
`${path}` placeholders with operators interpolates to a non-empty string,
which is always truthy — `"${n} === 0"` with `n` bound to `0` does take the
`then` branch (fifth conjunct), but so would any other binding of `n`. -/
theorem C2_condition_via_resolve :
    (∀ (f : Nat) (A : ActionTable) (ifE : String) (thenB : List FlowNode)
        (elseB : Option (List FlowNode)) (s : St),
        truthy (resolve (.vStr ifE) s.ctx) = true →
        execNode A (f + 1) (.cond ifE thenB elseB) s = condWrap (execSeq A f thenB s))
  ∧ (∀ (f : Nat) (A : ActionTable) (ifE : String) (thenB els : List FlowNode) (s : St),
        truthy (resolve (.vStr ifE) s.ctx) = false →
        execNode A (f + 1) (.cond ifE thenB (some els)) s = condWrap (execSeq A f els s))
  ∧ (∀ (f : Nat) (A : ActionTable) (ifE : String) (thenB : List FlowNode) (s : St),
        truthy (resolve (.vStr ifE) s.ctx) = false →
        execNode A (f + 1) (.cond ifE thenB none) s = (.ok false, s))
  ∧ (∀ (path : String) (ctx : Ctx), path ≠ "" → (∀ c ∈ path.toList, c ≠ '}') →
        evaluateCondition ("$\x7b" ++ path ++ "\x7d") ctx
          = truthy (resolve (.vStr ("$\x7b" ++ path ++ "\x7d")) ctx))
  ∧ (execNode tableEmpty 11
        (.cond "${n} === 0" [.ret none (.vStr "T")] (some [.ret none (.vStr "E")])) stN).2.resp.writes
      = [(200, .vStr "T")] := by
  refine ⟨?_, ?_, ?_, ?_, rfl⟩
  · intro f A ifE thenB elseB s h
    rcases hseq : execSeq A f thenB s with ⟨r, s2⟩
    rcases r with e | msg | _ <;> simp [execNode, condWrap, h, hseq]
  · intro f A ifE thenB els s h
    rcases hseq : execSeq A f els s with ⟨r, s2⟩
    rcases r with e | msg | _ <;> simp [execNode, condWrap, h, hseq]
  · intro f A ifE thenB s h
    simp [execNode, h]
  · intro path ctx hne h
    rw [evalCond_bare path ctx hne h, resolve_fullExpr path ctx hne h]

/-- `C2_condition_via_resolve` applied at concrete inputs. -/
theorem C2_condition_via_resolve_witness :
    execNode tableEmpty 3 (.cond "yes" [.ret none (.vStr "T")] none) st0
      = condWrap (execSeq tableEmpty 2 [.ret none (.vStr "T")] st0) ∧
    execNode tableEmpty 3 (.cond "${n}" [.ret none (.vStr "T")] none) st0 = (.ok false, st0) ∧
    evaluateCondition ("$\x7b" ++ "flag" ++ "\x7d") [("flag", .vBool true)]
      = truthy (resolve (.vStr ("$\x7b" ++ "flag" ++ "\x7d")) [("flag", .vBool true)]) :=
  ⟨C2_condition_via_resolve.1 2 tableEmpty "yes" [.ret none (.vStr "T")] none st0 (by rfl),
   C2_condition_via_resolve.2.2.1 2 tableEmpty "${n}" [.ret none (.vStr "T")] st0 (by rfl),
   C2_condition_via_resolve.2.2.2.1 "flag" [("flag", .vBool true)] (by decide)
     (by decide)⟩

/-! ### C3 — plugin injection -/

theorem objGet_foldSet_not_mem (reg : List (String × Value)) (acc : Obj) (name : String)
    (h : name ∉ reg.map Prod.fst) :
    objGet (reg.foldl (fun a p => objSet a p.1 p.2) acc) name = objGet acc name := by
  induction reg generalizing acc with
  | nil => rfl
  | cons kv rest ih =>
    simp only [List.map_cons, List.mem_cons, not_or] at h
    simp only [List.foldl_cons]
    rw [ih _ (by simpa using h.2)]
    exact objGet_objSet_ne acc kv.2 (fun he => h.1 he.symm)

theorem objGet_foldSet_mem (reg : List (String × Value)) (acc : Obj) (name : String)
    (c : Value) (hnodup : (reg.map Prod.fst).Nodup) (hmem : (name, c) ∈ reg) :
    objGet (reg.foldl (fun a p => objSet a p.1 p.2) acc) name = some c := by
  induction reg generalizing acc with
  | nil => cases hmem
  | cons kv rest ih =>
    have hnodup' : (kv.1 :: rest.map Prod.fst).Nodup := by
      rw [← List.map_cons]; exact hnodup
    have hhead := (List.nodup_cons.mp hnodup').1
    have htail := (List.nodup_cons.mp hnodup').2
    simp only [List.foldl_cons]
    rcases List.mem_cons.mp hmem with heq | hmem'
    · have hk : kv.1 = name := by rw [← heq]
      have hv : kv.2 = c := by rw [← heq]
      have hnot : name ∉ rest.map Prod.fst := by rw [← hk]; exact hhead
      rw [objGet_foldSet_not_mem rest _ name hnot, hk, hv, objGet_objSet_self]
    · exact ih (objSet acc kv.1 kv.2) htail hmem'

/-- C3: for every registered plugin, `name → getClient()` is copied into
`context.plugins` before the flow is walked, so the flow starts with
`ctx.plugins[name]` bound to the plugin's exposed client.  (The
plugin-aware executor is modelled from the spec; see `injectPlugins`.) -/
theorem C3_plugin_injection :
    (∀ (reg : List (String × Value)) (ctx : Ctx) (name : String) (c : Value),
        (reg.map Prod.fst).Nodup → (name, c) ∈ reg →
        ∃ P, objGet (injectPlugins reg ctx) "plugins" = some (.vObj P) ∧
          objGet P name = some c)
  ∧ (∀ (A : ActionTable) (fuel : Nat) (flow : List FlowNode)
        (reg : List (String × Value)) (s : St),
        executeFluxWithPlugins A fuel flow reg s
          = executeFlux A fuel flow { s with ctx := injectPlugins reg s.ctx }) := by
  constructor
  · intro reg ctx name c hnodup hmem
    unfold injectPlugins
    exact ⟨_, objGet_objSet_self _ _ _, objGet_foldSet_mem reg _ name c hnodup hmem⟩
  · intro A fuel flow reg s
    rfl

/-- `C3_plugin_injection` applied at a concrete one-plugin registry. -/
theorem C3_plugin_injection_witness :
    ∃ P, objGet (injectPlugins [("db", .vStr "pgClient")] []) "plugins" = some (.vObj P) ∧
      objGet P "db" = some (.vStr "pgClient") :=
  C3_plugin_injection.1 [("db", .vStr "pgClient")] [] "db" (.vStr "pgClient")
    (by simp) (List.mem_singleton.mpr rfl)

/-! ### C4 — action postcondition -/

/-- An action table whose only action throws without touching the
context. -/
def tableThrow : ActionTable :=
  fun p => if p = "p" then some (fun c => .error ("Boom", c)) else none

/-- A state whose context has an empty `results` bag, as a fresh request
context does. -/
def stR : St := { ctx := [("results", .vObj [])], resp := resp0 }

/-- C4 counterexample: the claim says `ctx.args` is cleared even when the
handler exits by throwing; in the code the `delete context.args` after the
handler call never runs on the throwing path, so `ctx.args` remains bound
to the resolved arguments. -/
theorem C4_counterexample :
    execNode tableThrow 2 (.action "a" "p" (some [("x", .vNum 1)])) stR
      = (.thrown "Boom",
         { ctx := [("results", .vObj []), ("args", .vObj [("x", .vNum 1)])], resp := resp0 }) ∧
    objGet [("results", .vObj []), ("args", .vObj [("x", .vNum 1)])] "args"
      = some (.vObj [("x", .vNum 1)]) :=
  ⟨rfl, rfl⟩

/-- The context after the post-handler stores of `executeAction`: result
bound at both `results[name]` and `name`, `args` deleted. -/
theorem action_store_inv (name : String) (r : Value) (ctx2 : Ctx) (rk : Obj)
    (hna : name ≠ "args") (hnr : name ≠ "results") :
    objGet (objDel (objSet (objSet ctx2 "results" (Value.vObj (objSet rk name r))) name r) "args")
        "args" = none ∧
    objGet (objDel (objSet (objSet ctx2 "results" (Value.vObj (objSet rk name r))) name r) "args")
        name = some r ∧
    resultsGet (objDel (objSet (objSet ctx2 "results" (Value.vObj (objSet rk name r))) name r) "args")
        name = some r := by
  refine ⟨objGet_objDel_self _ _, ?_, ?_⟩
  · rw [objGet_objDel_ne _ (Ne.symm hna), objGet_objSet_self]
  · unfold resultsGet
    rw [objGet_objDel_ne _ (by decide), objGet_objSet_ne _ _ hnr,
      objGet_objSet_self]
    simp [objGet_objSet_self]

/-- C4 (amended): when the handler returns normally (and the action name is
not itself one of the context keys `args`/`results` the store would
clobber), `ctx.results[n] === ctx[n]` holds and `ctx.args` is unset; when
the handler throws, the executor performs no cleanup — for a handler that
throws without mutating the context, the context keeps the `args` binding
installed before the call. -/
theorem C4_action_postcondition :
    (∀ (f : Nat) (A : ActionTable) (name path : String)
        (args : Option (List (String × Value))) (s s' : St),
        name ≠ "args" → name ≠ "results" →
        execNode A (f + 1) (.action name path args) s = (.ok false, s') →
        objGet s'.ctx "args" = none ∧
        ∃ r, objGet s'.ctx name = some r ∧ resultsGet s'.ctx name = some r)
  ∧ (∀ (f : Nat) (name path msg : String) (kvs : List (String × Value)) (s : St)
        (A : ActionTable),
        A path = some (fun c => .error (msg, c)) →
        execNode A (f + 1) (.action name path (some kvs)) s
          = (.thrown msg, { s with ctx := objSet s.ctx "args" (.vObj (resolveObj kvs s.ctx)) }))
  ∧ (∀ (ctx : Ctx) (kvs : Obj), objGet (objSet ctx "args" (.vObj kvs)) "args" = some (.vObj kvs)) := by
  refine ⟨?_, ?_, ?_⟩
  · intro f A name path args s s' hna hnr h
    simp only [execNode] at h
    unfold executeAction at h
    rcases hA : A path with _ | handler <;> rw [hA] at h
    · simp at h
    · cases args with
      | none =>
        rcases hh : handler (objDel s.ctx "args") with ⟨e, ctx2⟩ | ⟨r, ctx2⟩ <;>
          simp only [hh] at h
        · simp at h
        · rcases hres : objGet ctx2 "results" with _ | v <;> simp only [hres] at h
          · simp at h
          · cases v <;> (try simp at h)
            case vObj rk =>
              subst h
              obtain ⟨g1, g2, g3⟩ := action_store_inv name r ctx2 rk hna hnr
              exact ⟨g1, r, g2, g3⟩
      | some kvs =>
        rcases hh : handler (objSet s.ctx "args" (.vObj (resolveObj kvs s.ctx))) with
            ⟨e, ctx2⟩ | ⟨r, ctx2⟩ <;>
          simp only [hh] at h
        · simp at h
        · rcases hres : objGet ctx2 "results" with _ | v <;> simp only [hres] at h
          · simp at h
          · cases v <;> (try simp at h)
            case vObj rk =>
              subst h
              obtain ⟨g1, g2, g3⟩ := action_store_inv name r ctx2 rk hna hnr
              exact ⟨g1, r, g2, g3⟩
  · intro f name path msg kvs s A hA
    simp only [execNode]
    unfold executeAction
    rw [hA]
  · intro ctx kvs
    exact objGet_objSet_self _ _ _

/-- `C4_action_postcondition` applied at concrete inputs. -/
theorem C4_action_postcondition_witness :
    (objGet [("results", .vObj [("a", .vNum 7)]), ("a", .vNum 7)] "args" = none ∧
      ∃ r, objGet [("results", .vObj [("a", .vNum 7)]), ("a", .vNum 7)] "a" = some r ∧
        resultsGet [("results", .vObj [("a", .vNum 7)]), ("a", .vNum 7)] "a" = some r) ∧
    execNode tableThrow 1 (.action "a" "p" (some [("x", .vNum 1)])) stR
      = (.thrown "Boom",
         { stR with ctx := objSet stR.ctx "args" (.vObj (resolveObj [("x", .vNum 1)] stR.ctx)) }) := by
  constructor
  · exact C4_action_postcondition.1 0
      (fun p => if p = "p" then some (fun c => .ok (.vNum 7, c)) else none)
      "a" "p" none stR _ (by decide) (by decide) (by rfl)
  · exact C4_action_postcondition.2.1 0 "a" "p" "Boom" [("x", .vNum 1)] stR tableThrow rfl

/-! ### C5 — forEach binding and iteration order -/

/-- A state whose context binds an array under `xs`. -/
def stX : St := { ctx := [("xs", .vArr [.vNum 5])], resp := resp0 }

/-- C5 counterexample: the claim says `ctx[as]` is removed whenever the
loop exits, including early exit via a nested Return; in the code the
`delete context[node.as]` after the loop does not run on the early-return
path, so the binding `i = 5` survives the node. -/
theorem C5_counterexample :
    execNode tableEmpty 12 (.forEach "${xs}" "i" [.ret none (.vStr "T")]) stX
      = (.ok false, { ctx := [("xs", .vArr [.vNum 5]), ("i", .vNum 5)],
                      resp := { sent := true, writes := [(200, .vStr "T")] } }) ∧
    objGet [("xs", .vArr [.vNum 5]), ("i", .vNum 5)] "i" = some (.vNum 5) :=
  ⟨rfl, rfl⟩

/-- An action handler observing the current `forEach` binding: it appends
`ctx["i"]` to the array held at `ctx["seen"]`. -/
def probeHandler : Handler := fun c =>
  .ok (.vNull, objSet c "seen"
    (.vArr ((match objGet c "seen" with | some (.vArr l) => l | _ => []) ++
      [(objGet c "i").getD .vUndefined])))

/-- A table exposing only the probe action. -/
def tableProbe : ActionTable := fun p => if p = "probe" then some probeHandler else none

/-- A loop body that invokes the probe once per iteration. -/
def probeBody : List FlowNode := [.action "p" "probe" none]

/-- One probe iteration: invoking the probe action with `i` bound to `x`
appends `x` to `seen` and keeps `results` an object. -/
theorem probe_step (ctx : Ctx) (x : Value) (pre : List Value) (rk : Obj) (resp : Resp)
    (hres : objGet ctx "results" = some (.vObj rk))
    (hseen : objGet ctx "seen" = some (.vArr pre)) :
    ∃ ctx5,
      executeAction tableProbe "p" "probe" none { ctx := objSet ctx "i" x, resp := resp }
        = (.ok false, { ctx := ctx5, resp := resp }) ∧
      objGet ctx5 "results" = some (.vObj (objSet rk "p" .vNull)) ∧
      objGet ctx5 "seen" = some (.vArr (pre ++ [x])) := by
  have hseen1 : objGet (objDel (objSet ctx "i" x) "args") "seen" = some (.vArr pre) := by
    rw [objGet_objDel_ne _ (by decide), objGet_objSet_ne _ _ (by decide), hseen]
  have hcur : objGet (objDel (objSet ctx "i" x) "args") "i" = some x := by
    rw [objGet_objDel_ne _ (by decide), objGet_objSet_self]
  have hhand : probeHandler (objDel (objSet ctx "i" x) "args")
      = .ok (.vNull, objSet (objDel (objSet ctx "i" x) "args") "seen" (.vArr (pre ++ [x]))) := by
    unfold probeHandler
    rw [hseen1, hcur]
    rfl
  have hres2 : objGet (objSet (objDel (objSet ctx "i" x) "args") "seen" (.vArr (pre ++ [x])))
      "results" = some (.vObj rk) := by
    rw [objGet_objSet_ne _ _ (by decide), objGet_objDel_ne _ (by decide),
      objGet_objSet_ne _ _ (by decide), hres]
  refine ⟨objDel (objSet (objSet (objSet (objDel (objSet ctx "i" x) "args") "seen"
      (.vArr (pre ++ [x]))) "results" (.vObj (objSet rk "p" .vNull))) "p" .vNull) "args",
    ?_, ?_, ?_⟩
  · unfold executeAction
    have htab : tableProbe "probe" = some probeHandler := rfl
    rw [htab]
    simp only [hhand, hres2]
  · rw [objGet_objDel_ne _ (by decide), objGet_objSet_ne _ _ (by decide), objGet_objSet_self]
  · rw [objGet_objDel_ne _ (by decide), objGet_objSet_ne _ _ (by decide),
      objGet_objSet_ne _ _ (by decide), objGet_objSet_self]

/-- C5 (amended): when the item loop finishes normally, `executeForEach`
unbinds `ctx[as]` (first conjunct) — on early return or a thrown error the
unbind is skipped, as the counterexample shows; and the iterations observe
the resolved array's elements sequentially in index order: a probe action
that appends the current binding to an accumulator sees exactly the array,
in order (second conjunct). -/
theorem C5_forEach :
    (∀ (f : Nat) (A : ActionTable) (items asVar : String) (doB : List FlowNode)
        (xs : List Value) (s s' : St),
        resolve (.vStr items) s.ctx = .vArr xs →
        execIter A f asVar doB xs s = (.ok false, s') →
        execNode A (f + 1) (.forEach items asVar doB) s
          = (.ok false, { s' with ctx := objDel s'.ctx asVar }) ∧
        objGet (objDel s'.ctx asVar) asVar = none)
  ∧ (∀ (xs : List Value) (f : Nat) (pre : List Value) (rk : Obj) (s s' : St),
        objGet s.ctx "results" = some (.vObj rk) →
        objGet s.ctx "seen" = some (.vArr pre) →
        execIter tableProbe f "i" probeBody xs s = (.ok false, s') →
        objGet s'.ctx "seen" = some (.vArr (pre ++ xs))) := by
  constructor
  · intro f A items asVar doB xs s s' hres hit
    constructor
    · simp only [execNode, hres, hit]
    · exact objGet_objDel_self _ _
  · intro xs
    induction xs with
    | nil =>
      intro f pre rk s s' hres hseen hit
      have hs' : s' = s := by
        cases f <;> (simp only [execIter] at hit; exact (congrArg Prod.snd hit).symm)
      subst hs'
      simpa using hseen
    | cons x rest ih =>
      intro f pre rk s s' hres hseen hit
      match f with
      | 0 => simp [execIter] at hit
      | f1 + 1 =>
        obtain ⟨ctx5, hact, hres5, hseen5⟩ := probe_step s.ctx x pre rk s.resp hres hseen
        match f1 with
        | 0 => simp [execIter, execSeq] at hit
        | f2 + 1 =>
          match f2 with
          | 0 => simp [execIter, execSeq, execNode] at hit
          | f3 + 1 =>
            have hseq : execSeq tableProbe (f3 + 1 + 1) probeBody
                { s with ctx := objSet s.ctx "i" x }
                = (.ok false, { ctx := ctx5, resp := s.resp }) := by
              simp only [probeBody, execSeq, execNode]
              rw [hact]
            simp only [execIter, hseq] at hit
            have := ih (f3 + 1 + 1) (pre ++ [x]) (objSet rk "p" .vNull)
              { ctx := ctx5, resp := s.resp } s' hres5 hseen5 hit
            simpa using this

/-- A state with a two-element array under `xs` and fresh `results`/`seen`
accumulators, for exercising the probe loop. -/
def stP : St :=
  { ctx := [("xs", .vArr [.vNum 1, .vNum 2]), ("results", .vObj []), ("seen", .vArr [])],
    resp := resp0 }

/-- `C5_forEach` applied at a concrete two-element array. -/
theorem C5_forEach_witness :
    (execNode tableProbe 21 (.forEach "${xs}" "i" probeBody) stP).1 = .ok false ∧
    objGet (execIter tableProbe 20 "i" probeBody [.vNum 1, .vNum 2] stP).2.ctx "seen"
      = some (.vArr [.vNum 1, .vNum 2]) := by
  constructor
  · have h := (C5_forEach.1 20 tableProbe "${xs}" "i" probeBody [.vNum 1, .vNum 2]
      stP _ (by rfl) (by rfl)).1
    rw [h]
  · exact C5_forEach.2 [.vNum 1, .vNum 2] 20 [] [] stP _ (by rfl) (by rfl) (by rfl)

/-! ### C6 — Return node semantics -/

/-- C6 counterexample: the claim says the written body equals
`resolve(body, ctx)` for every body value; the code only resolves a truthy
body (`node.body ? resolve(…) : undefined`), so the falsy body `0` is
written as `undefined` although `resolve(0, ctx) = 0`. -/
theorem C6_counterexample :
    executeReturn none (.vNum 0) st0
      = (.ok true, { ctx := [], resp := { sent := true, writes := [(200, .vUndefined)] } }) ∧
    resolve (.vNum 0) [] = .vNum 0 ∧
    Value.vUndefined ≠ Value.vNum 0 :=
  ⟨rfl, rfl, fun h => Value.noConfusion h⟩

/-- The response handle after one successful write. -/
def respAfterWrite (r : Resp) (status : Nat) (body : Value) : Resp :=
  { sent := true, writes := r.writes ++ [(status, body)] }

/-- The state a Return node leaves on a fresh response: status
`status || 200`, body resolved only when truthy. -/
def retWrite (s : St) (status : Option Nat) (body : Value) : St :=
  { s with
    resp :=
      respAfterWrite s.resp (statusOfRet status)
        (if truthy body then resolve body s.ctx else .vUndefined) }

/-- C6 (amended): on a fresh response, a Return node writes status
`status || 200` and the body `resolve(body, ctx)` when `body` is truthy —
`undefined` when it is falsy — and signals early-termination to its
caller. -/
theorem C6_return_semantics :
    (∀ (f : Nat) (A : ActionTable) (status : Option Nat) (body : Value) (s : St),
        s.resp.sent = false →
        execNode A (f + 1) (.ret status body) s = (.ok true, retWrite s status body))
  ∧ statusOfRet none = 200
  ∧ statusOfRet (some 0) = 200
  ∧ (∀ n : Nat, n ≠ 0 → statusOfRet (some n) = n) := by
  refine ⟨?_, rfl, rfl, ?_⟩
  · intro f A status body s h
    simp only [execNode]
    unfold executeReturn send retWrite respAfterWrite
    rw [h]
    simp
  · intro n hn
    simp [statusOfRet, hn]

/-- `C6_return_semantics` applied at concrete inputs. -/
theorem C6_return_semantics_witness :
    execNode tableEmpty 1 (.ret (some 201) (.vStr "ok")) st0
      = (.ok true, retWrite st0 (some 201) (.vStr "ok")) ∧
    statusOfRet (some 201) = 201 :=
  ⟨C6_return_semantics.1 0 tableEmpty (some 201) (.vStr "ok") st0 rfl,
   C6_return_semantics.2.2.2 201 (by decide)⟩

/-! ### C7 — one response per request, no rethrow -/

/-- The response-handle invariant maintained by the executor: nothing has
been sent and no write performed, or exactly one write has been performed
and `headersSent` is set. -/
def RespInv (r : Resp) : Prop :=
  (r.sent = false ∧ r.writes = []) ∨ (r.sent = true ∧ r.writes.length = 1)

theorem send_inv {status : Nat} {b : Value} {r r' : Resp}
    (h : send status b r = .ok r') (hr : RespInv r) : RespInv r' := by
  unfold send at h
  rcases hr with ⟨h1, h2⟩ | ⟨h1, h2⟩
  · rw [h1] at h
    simp at h
    rw [← h]
    right
    simp [h2]
  · rw [h1] at h
    simp at h

theorem executeReturn_resp_inv (status : Option Nat) (body : Value) (s : St)
    (h : RespInv s.resp) : RespInv (executeReturn status body s).2.resp := by
  unfold executeReturn
  rcases hs : send (statusOfRet status)
      (if truthy body then resolve body s.ctx else Value.vUndefined) s.resp with e | r'
  · simp only [hs]
    exact h
  · simp only [hs]
    exact send_inv hs h

theorem executeAction_resp_eq (A : ActionTable) (name path : String)
    (args : Option (List (String × Value))) (s : St) :
    (executeAction A name path args s).2.resp = s.resp := by
  unfold executeAction
  rcases hA : A path with _ | handler
  · rfl
  · cases args with
    | none =>
      rcases hh : handler (objDel s.ctx "args") with ⟨e, ctx2⟩ | ⟨r, ctx2⟩
      · simp [hh]
      · rcases hres : objGet ctx2 "results" with _ | v
        · simp [hh, hres]
        · cases v <;> simp [hh, hres]
    | some kvs =>
      rcases hh : handler (objSet s.ctx "args" (.vObj (resolveObj kvs s.ctx))) with
          ⟨e, ctx2⟩ | ⟨r, ctx2⟩
      · simp [hh]
      · rcases hres : objGet ctx2 "results" with _ | v
        · simp [hh, hres]
        · cases v <;> simp [hh, hres]

/-- The executor preserves the response invariant: responses are written
only through `send`, which refuses a second write. -/
theorem exec_resp_inv :
    ∀ (f : Nat) (A : ActionTable),
      (∀ (n : FlowNode) (s : St), RespInv s.resp → RespInv (execNode A f n s).2.resp) ∧
      (∀ (ns : List FlowNode) (s : St), RespInv s.resp → RespInv (execSeq A f ns s).2.resp) ∧
      (∀ (asVar : String) (doB : List FlowNode) (xs : List Value) (s : St),
        RespInv s.resp → RespInv (execIter A f asVar doB xs s).2.resp) ∧
      (∀ (bs : List (List FlowNode)) (fe : Option String) (s : St),
        RespInv s.resp → RespInv (execBranches A f bs fe s).2.resp) := by
  intro f
  induction f with
  | zero =>
    intro A
    refine ⟨?_, ?_, ?_, ?_⟩
    · intro n s h
      simpa [execNode] using h
    · intro ns s h
      cases ns <;> simpa [execSeq] using h
    · intro v b xs s h
      cases xs <;> simpa [execIter] using h
    · intro bs fe s h
      cases bs <;> cases fe <;> simpa [execBranches] using h
  | succ f ih =>
    intro A
    obtain ⟨ihN, ihS, ihI, ihB⟩ := ih A
    have seqInv : ∀ (ns : List FlowNode) (s : St), RespInv s.resp →
        ∀ r s2, execSeq A f ns s = (r, s2) → RespInv s2.resp := by
      intro ns s h r s2 hseq
      have h2 := ihS ns s h
      rw [hseq] at h2
      exact h2
    refine ⟨?_, ?_, ?_, ?_⟩
    · intro n s h
      cases n with
      | action name path args =>
        simp only [execNode]
        rw [executeAction_resp_eq]
        exact h
      | cond ifE thenB elseB =>
        simp only [execNode]
        by_cases hc : truthy (resolve (.vStr ifE) s.ctx)
        · rw [if_pos hc]
          rcases hseq : execSeq A f thenB s with ⟨r, s2⟩
          have h2 := seqInv thenB s h r s2 hseq
          rcases r with e | msg | _ <;> simp only [hseq] <;> simpa using h2
        · rw [if_neg hc]
          cases elseB with
          | none => simpa using h
          | some els =>
            rcases hseq : execSeq A f els s with ⟨r, s2⟩
            have h2 := seqInv els s h r s2 hseq
            rcases r with e | msg | _ <;> simp only [hseq] <;> simpa using h2
      | forEach items asVar doB =>
        simp only [execNode]
        rcases hr : resolve (.vStr items) s.ctx with _ | _ | b | n | a | xs | kvs <;>
          try simpa using h
        rcases hit : execIter A f asVar doB xs s with ⟨r, s2⟩
        have h2 := ihI asVar doB xs s h
        rw [hit] at h2
        simp only [hit]
        rcases r with e | msg | _
        · cases e <;> simpa using h2
        · simpa using h2
        · simpa using h2
      | parallel branches =>
        simp only [execNode]
        rcases hb : execBranches A f branches none s with ⟨r, s2⟩
        have h2 := ihB branches none s h
        rw [hb] at h2
        try simp only [hb]
        rcases r with e | msg | _ <;> simpa using h2
      | tryc tryB catchB errorVar =>
        simp only [execNode]
        rcases hseq : execSeq A f tryB s with ⟨r, s2⟩
        have h2 := seqInv tryB s h r s2 hseq
        try simp only [hseq]
        rcases r with e | msg | _
        · simpa using h2
        · rcases hseq2 : execSeq A f catchB
              { s2 with ctx := bindError errorVar msg s2.ctx } with ⟨r2, s3⟩
          have h3 := seqInv catchB
            { s2 with ctx := bindError errorVar msg s2.ctx } h2 r2 s3 hseq2
          rcases r2 with e2 | msg2 | _ <;> (try simp only [hseq2]) <;> simpa using h3
        · simpa using h2
      | ret status body =>
        simp only [execNode]
        exact executeReturn_resp_inv status body s h
    · intro ns s h
      cases ns with
      | nil => simpa [execSeq] using h
      | cons n rest =>
        simp only [execSeq]
        rcases hn : execNode A f n s with ⟨r, s2⟩
        have h2 := ihN n s h
        rw [hn] at h2
        try simp only [hn]
        rcases r with e | msg | _
        · cases e
          · simpa using ihS rest s2 h2
          · simpa using h2
        · simpa using h2
        · simpa using h2
    · intro asVar doB xs s h
      cases xs with
      | nil => simpa [execIter] using h
      | cons x rest =>
        simp only [execIter]
        rcases hseq : execSeq A f doB { s with ctx := objSet s.ctx asVar x } with ⟨r, s2⟩
        have h2 := seqInv doB { s with ctx := objSet s.ctx asVar x } h r s2 hseq
        try simp only [hseq]
        rcases r with e | msg | _
        · cases e
          · simpa using ihI asVar doB rest s2 h2
          · simpa using h2
        · simpa using h2
        · simpa using h2
    · intro bs fe s h
      cases bs with
      | nil => cases fe <;> simpa [execBranches] using h
      | cons b rest =>
        simp only [execBranches]
        rcases hseq : execSeq A f b s with ⟨r, s2⟩
        have h2 := seqInv b s h r s2 hseq
        try simp only [hseq]
        rcases r with e | msg | _
        · simpa using ihB rest fe s2 h2
        · cases fe <;> simpa using ihB rest _ s2 h2
        · simpa using h2

theorem execFlowLoop_inv :
    ∀ (f : Nat) (A : ActionTable) (flow : List FlowNode) (s : St),
      RespInv s.resp → RespInv (execFlowLoop A f flow s).2.resp := by
  intro f
  induction f with
  | zero =>
    intro A flow s h
    cases flow <;> simpa [execFlowLoop] using h
  | succ f ih =>
    intro A flow s h
    cases flow with
    | nil => simpa [execFlowLoop] using h
    | cons n rest =>
      simp only [execFlowLoop]
      rcases hn : execNode A f n s with ⟨r, s2⟩
      have h2 := (exec_resp_inv f A).1 n s h
      rw [hn] at h2
      try simp only [hn]
      rcases r with e | msg | _
      · cases e
        · by_cases hs : s2.resp.sent
          · simpa [hs] using h2
          · simpa [hs] using ih A rest s2 h2
        · simpa using h2
      · simpa using h2
      · simpa using h2

/-- C7: `executeFlux` writes exactly one response per request and never
rethrows — when the walk ends without a response it writes `200
{success:true}`, and a failure uncaught by any Try node is caught at the
outermost level, written as `500 {error:"Internal server error"}` when
nothing was sent yet and swallowed otherwise.  (`executeFlux` returning a
plain state rather than an exception is the never-rethrows contract; `none`
only signals the embedding's fuel.) -/
theorem C7_single_response :
    (∀ (A : ActionTable) (fuel : Nat) (flow : List FlowNode) (s s' : St),
        s.resp.sent = false → s.resp.writes = [] →
        executeFlux A fuel flow s = some s' →
        s'.resp.sent = true ∧ s'.resp.writes.length = 1)
  ∧ (∀ (A : ActionTable) (fuel : Nat) (flow : List FlowNode) (s s' : St) (r : Bool),
        execFlowLoop A fuel flow s = (.ok r, s') → s'.resp.sent = false →
        executeFlux A fuel flow s = some { s' with resp := respAfterWrite s'.resp 200 successBody })
  ∧ (∀ (A : ActionTable) (fuel : Nat) (flow : List FlowNode) (s s' : St) (e : String),
        execFlowLoop A fuel flow s = (.thrown e, s') → s'.resp.sent = false →
        executeFlux A fuel flow s = some { s' with resp := respAfterWrite s'.resp 500 errorBody })
  ∧ (∀ (A : ActionTable) (fuel : Nat) (flow : List FlowNode) (s s' : St) (e : String),
        execFlowLoop A fuel flow s = (.thrown e, s') → s'.resp.sent = true →
        executeFlux A fuel flow s = some s') := by
  refine ⟨?_, ?_, ?_, ?_⟩
  · intro A fuel flow s s' hsent hwrites h
    have hinv := execFlowLoop_inv fuel A flow s (Or.inl ⟨hsent, hwrites⟩)
    unfold executeFlux at h
    rcases hloop : execFlowLoop A fuel flow s with ⟨r, s2⟩
    rw [hloop] at hinv h
    dsimp only at hinv
    rcases r with e | msg | _
    · by_cases hs : s2.resp.sent
      · simp only [hs, if_true] at h
        simp only [Option.some.injEq] at h
        subst h
        rcases hinv with ⟨h1, _⟩ | ⟨h1, h2⟩
        · rw [hs] at h1
          cases h1
        · exact ⟨h1, h2⟩
      · simp only [hs, if_false] at h
        simp only [Option.some.injEq] at h
        subst h
        rcases hinv with ⟨h1, h2⟩ | ⟨h1, _⟩
        · constructor
          · rfl
          · simp [h2]
        · rw [h1] at hs
          cases hs rfl
    · by_cases hs : s2.resp.sent
      · simp only [hs, if_true] at h
        simp only [Option.some.injEq] at h
        subst h
        rcases hinv with ⟨h1, _⟩ | ⟨h1, h2⟩
        · rw [hs] at h1
          cases h1
        · exact ⟨h1, h2⟩
      · simp only [hs, if_false] at h
        simp only [Option.some.injEq] at h
        subst h
        rcases hinv with ⟨h1, h2⟩ | ⟨h1, _⟩
        · constructor
          · rfl
          · simp [h2]
        · rw [h1] at hs
          cases hs rfl
    · simp at h
  · intro A fuel flow s s' r hloop hs
    unfold executeFlux
    rw [hloop]
    simp [hs, respAfterWrite]
  · intro A fuel flow s s' e hloop hs
    unfold executeFlux
    rw [hloop]
    simp [hs, respAfterWrite]
  · intro A fuel flow s s' e hloop hs
    unfold executeFlux
    rw [hloop]
    simp [hs]

/-- `C7_single_response` applied at concrete flows. -/
theorem C7_single_response_witness :
    ({ ctx := ([] : Ctx), resp := { sent := true, writes := [(200, successBody)] } } : St).resp.sent
        = true ∧
    ({ ctx := ([] : Ctx), resp := { sent := true, writes := [(200, successBody)] } } : St).resp.writes.length
        = 1 ∧
    executeFlux tableThrow 5 [.action "a" "p" none] stR
      = some { stR with resp := respAfterWrite stR.resp 500 errorBody } := by
  refine ⟨?_, ?_, ?_⟩
  · exact (C7_single_response.1 tableEmpty 5 [] st0
      { ctx := [], resp := { sent := true, writes := [(200, successBody)] } } rfl rfl rfl).1
  · exact (C7_single_response.1 tableEmpty 5 [] st0
      { ctx := [], resp := { sent := true, writes := [(200, successBody)] } } rfl rfl rfl).2
  · exact C7_single_response.2.2.1 tableThrow 5 [.action "a" "p" none] stR stR "Boom"
      (by rfl) rfl

/-! ### C8 — string resolution -/

/-- C8: string handling of `resolve` — a full-expression `${path}` string
returns the looked-up value preserving its native type (first conjunct; in
particular `${a.b.c}` with `a` unset is `undefined`, second conjunct), and
any other string replaces each `${path}` with the string form of the
looked-up value, rendering `undefined`/`null` as the empty string but not
blanking zero (`resolve("x=${n}", {n:0}) = "x=0"`, third conjunct). -/
theorem C8_resolve_strings :
    (∀ (path : String) (ctx : Ctx), path ≠ "" → (∀ c ∈ path.toList, c ≠ '}') →
        resolve (.vStr ("$\x7b" ++ path ++ "\x7d")) ctx = getValueByPath path ctx)
  ∧ (∀ ctx : Ctx, objGet ctx "a" = none → resolve (.vStr "${a.b.c}") ctx = .vUndefined)
  ∧ resolve (.vStr "x=${n}") [("n", .vNum 0)] = .vStr "x=0"
  ∧ (∀ ctx : Ctx, getValueByPath "n" ctx = .vUndefined →
        resolve (.vStr "x=${n}") ctx = .vStr "x=")
  ∧ (∀ ctx : Ctx, getValueByPath "n" ctx = .vNull →
        resolve (.vStr "x=${n}") ctx = .vStr "x=") := by
  refine ⟨resolve_fullExpr, ?_, rfl, ?_, ?_⟩
  · intro ctx h
    show walkPath ["a", "b", "c"] (.vObj ctx) = .vUndefined
    simp [walkPath, getField, h]
  · intro ctx h
    have step : resolve (.vStr "x=${n}") ctx
        = .vStr ("x" ++ ("=" ++ (renderValue (getValueByPath "n" ctx) ++ ""))) := rfl
    rw [step, h]
    rfl
  · intro ctx h
    have step : resolve (.vStr "x=${n}") ctx
        = .vStr ("x" ++ ("=" ++ (renderValue (getValueByPath "n" ctx) ++ ""))) := rfl
    rw [step, h]
    rfl

/-- `C8_resolve_strings` applied at concrete inputs. -/
theorem C8_resolve_strings_witness :
    resolve (.vStr ("$\x7b" ++ "n" ++ "\x7d")) [("n", .vNum 0)]
      = getValueByPath "n" [("n", .vNum 0)] ∧
    resolve (.vStr "${a.b.c}") [("n", .vNum 0)] = .vUndefined ∧
    resolve (.vStr "x=${n}") [] = .vStr "x=" :=
  ⟨C8_resolve_strings.1 "n" [("n", .vNum 0)] (by decide) (by decide),
   C8_resolve_strings.2.1 [("n", .vNum 0)] (by rfl),
   C8_resolve_strings.2.2.2.1 [] (by rfl)⟩

/-! ### C9 — validator postcondition and loader exclusion -/

/-- The spec's echo flux: a valid definition. -/
def fluxEcho : Value :=
  .vObj [("endpoint", .vStr "/hello"), ("method", .vStr "GET"),
    ("flow", .vArr [.vObj [("type", .vStr "return"), ("body", .vStr "hi")]])]

/-- The spec's validation-failure flux: an action node missing `path`. -/
def fluxMissingPath : Value :=
  .vObj [("endpoint", .vStr "/x"), ("method", .vStr "GET"),
    ("flow", .vArr [.vObj [("type", .vStr "action"), ("name", .vStr "x")]])]

/-- A flux with two independent schema violations (bad method and a
missing `path`). -/
def fluxTwoErrors : Value :=
  .vObj [("endpoint", .vStr "/x"), ("method", .vStr "FETCH"),
    ("flow", .vArr [.vObj [("type", .vStr "action"), ("name", .vStr "x")]])]

/-- C9: `validate` returns `{valid, errors[]}` with `valid` iff no error
was collected; each error carries an instance path and a message; all
violations are collected in one call (the two-violation flux yields two
errors, no fail-fast); a flux whose action node omits `path` is invalid
with an error referencing `/flow/0`; and the loader keeps only valid
definitions, so the invalid flux is never registered. -/
theorem C9_validator :
    (∀ d, (validate d).valid = true ↔ (validate d).errors = [])
  ∧ (validate fluxMissingPath).valid = false
  ∧ "/flow/0 must have required property 'path'" ∈ (validate fluxMissingPath).errors
  ∧ (validate fluxTwoErrors).errors.length = 2
  ∧ (∀ (files : List (String × Value)) (d : Value),
        d ∈ (loadFluxDefinitions files).1 → (validate d).valid = true)
  ∧ fluxMissingPath ∉
      (loadFluxDefinitions [("echo.json", fluxEcho), ("bad.json", fluxMissingPath)]).1 := by
  refine ⟨?_, rfl, ?_, rfl, ?_, ?_⟩
  · intro d
    cases d <;> simp [validate, List.isEmpty_iff]
  · show _ ∈ ["/flow/0 must have required property 'path'"]
    exact List.mem_singleton.mpr rfl
  · intro files
    induction files with
    | nil =>
      intro d h
      simp [loadFluxDefinitions] at h
    | cons fd rest ih =>
      intro d h
      obtain ⟨name, df⟩ := fd
      simp only [loadFluxDefinitions] at h
      by_cases hv : (validate df).valid = true
      · rw [if_pos hv] at h
        rcases List.mem_cons.mp h with heq | hmem
        · rw [heq]
          exact hv
        · exact ih d hmem
      · rw [if_neg hv] at h
        exact ih d h
  · rw [show (loadFluxDefinitions
        [("echo.json", fluxEcho), ("bad.json", fluxMissingPath)]).1 = [fluxEcho] from rfl]
    intro h
    have heq : fluxMissingPath = fluxEcho := List.mem_singleton.mp h
    simp [fluxMissingPath, fluxEcho] at heq

/-- `C9_validator` applied at the concrete echo flux. -/
theorem C9_validator_witness :
    (validate fluxEcho).valid = true :=
  C9_validator.2.2.2.2.1 [("echo.json", fluxEcho)] fluxEcho
    (by rw [show (loadFluxDefinitions [("echo.json", fluxEcho)]).1 = [fluxEcho] from rfl]
        exact List.mem_singleton.mpr rfl)

/-! ### C10 theorems -/

mutual
/-- `resolve` is the identity on template-free values. -/
theorem resolve_id : ∀ (x : Value) (ctx : Ctx), jsonTemplateFree x = true → resolve x ctx = x
  | .vNull, _, _ => rfl
  | .vBool _, _, _ => rfl
  | .vNum _, _, _ => rfl
  | .vUndefined, _, h => by simp [jsonTemplateFree] at h
  | .vStr s, ctx, h => by
    have h2 : hasDollarBrace s.data = false := by
      simpa [jsonTemplateFree] using h
    simp [resolve, h2]
  | .vArr xs, ctx, h => by
    have h2 := resolveList_id xs ctx (by simpa [jsonTemplateFree] using h)
    simp [resolve, h2]
  | .vObj kvs, ctx, h => by
    have h2 := resolveObj_id kvs ctx (by simpa [jsonTemplateFree] using h)
    simp [resolve, h2]

/-- `resolveList` is the identity on template-free elements. -/
theorem resolveList_id :
    ∀ (xs : List Value) (ctx : Ctx), jsonTemplateFreeList xs = true → resolveList xs ctx = xs
  | [], _, _ => rfl
  | x :: rest, ctx, h => by
    have h0 : (jsonTemplateFree x && jsonTemplateFreeList rest) = true := h
    rw [Bool.and_eq_true] at h0
    simp [resolveList, resolve_id x ctx h0.1, resolveList_id rest ctx h0.2]

/-- `resolveObj` is the identity on template-free member values. -/
theorem resolveObj_id :
    ∀ (kvs : List (String × Value)) (ctx : Ctx), jsonTemplateFreeObj kvs = true →
      resolveObj kvs ctx = kvs
  | [], _, _ => rfl
  | (k, v) :: rest, ctx, h => by
    have h0 : ((keyFresh k rest && jsonTemplateFree v) && jsonTemplateFreeObj rest) = true := h
    rw [Bool.and_eq_true, Bool.and_eq_true] at h0
    simp [resolveObj, resolve_id v ctx h0.1.2, resolveObj_id rest ctx h0.2]
end

theorem digitChar_isDigit : ∀ m, m < 10 → (Char.ofNat (48 + m)).isDigit = true := by
  intro m hm
  interval_cases m <;> decide

theorem digitChar_toNat : ∀ m, m < 10 → (Char.ofNat (48 + m)).toNat = 48 + m := by
  intro m hm
  interval_cases m <;> decide

theorem natToCharsF_eq (n : Nat) : ∀ f, n < f → natToCharsF f n = natToChars n := by
  induction n using Nat.strong_induction_on with
  | _ n ih =>
    intro f hf
    match f, hf with
    | g + 1, _ =>
      unfold natToChars
      simp only [natToCharsF]
      by_cases h10 : n < 10
      · simp [h10]
      · simp only [if_neg h10]
        have hd : n / 10 < n := Nat.div_lt_self (by omega) (by omega)
        rw [ih (n/10) hd g (by omega), ih (n/10) hd n (by omega)]

theorem natToChars_eq (n : Nat) :
    natToChars n = if n < 10 then [Char.ofNat (48 + n)]
      else natToChars (n / 10) ++ [Char.ofNat (48 + n % 10)] := by
  conv_lhs => rw [natToChars]
  simp only [natToCharsF]
  by_cases h10 : n < 10
  · simp [h10]
  · have hd : n / 10 < n := Nat.div_lt_self (by omega) (by omega)
    simp only [if_neg h10]
    rw [natToCharsF_eq (n/10) n (by omega)]

theorem natToChars_digits (n : Nat) : ∀ c ∈ natToChars n, c.isDigit = true := by
  induction n using Nat.strong_induction_on with
  | _ n ih =>
    intro c hc
    rw [natToChars_eq] at hc
    by_cases h10 : n < 10
    · rw [if_pos h10] at hc
      simp only [List.mem_singleton] at hc
      subst hc
      exact digitChar_isDigit n h10
    · rw [if_neg h10] at hc
      rcases List.mem_append.mp hc with h | h
      · exact ih (n/10) (Nat.div_lt_self (by omega) (by omega)) c h
      · simp only [List.mem_singleton] at h
        subst h
        exact digitChar_isDigit (n % 10) (Nat.mod_lt _ (by omega))

theorem natToChars_ne_nil (n : Nat) : natToChars n ≠ [] := by
  rw [natToChars_eq]
  by_cases h10 : n < 10
  · simp [h10]
  · simp [h10]

theorem digitsToNat_append : ∀ (l1 l2 : List Char) (acc : Nat),
    digitsToNat acc (l1 ++ l2) =
      match digitsToNat acc l1 with
      | some m => digitsToNat m l2
      | none => none := by
  intro l1
  induction l1 with
  | nil => intro l2 acc; simp [digitsToNat]
  | cons c r ihr =>
    intro l2 acc
    simp only [List.cons_append, digitsToNat, List.append_eq]
    by_cases hd : c.isDigit
    · rw [if_pos hd, if_pos hd, ihr]
    · rw [if_neg hd, if_neg hd]

theorem digitsToNat_natToChars (n : Nat) : ∀ acc,
    digitsToNat acc (natToChars n) = some (acc * 10 ^ (natToChars n).length + n) := by
  induction n using Nat.strong_induction_on with
  | _ n ih =>
    intro acc
    conv_lhs => rw [natToChars_eq]
    by_cases h10 : n < 10
    · rw [if_pos h10]
      simp only [digitsToNat, digitChar_isDigit n h10, if_pos]
      rw [digitChar_toNat n h10]
      rw [natToChars_eq, if_pos h10]
      simp
    · rw [if_neg h10]
      rw [digitsToNat_append]
      rw [ih (n/10) (Nat.div_lt_self (by omega) (by omega)) acc]
      simp only [digitsToNat, digitChar_isDigit (n % 10) (Nat.mod_lt _ (by omega)), if_pos]
      rw [digitChar_toNat (n % 10) (Nat.mod_lt _ (by omega))]
      conv_rhs => rw [natToChars_eq, if_neg h10]
      simp only [List.length_append, List.length_singleton, pow_succ, ← mul_assoc]
      generalize acc * 10 ^ (natToChars (n / 10)).length = A
      congr 1
      omega

theorem digits_split : ∀ (l rest : List Char),
    (∀ c ∈ l, c.isDigit = true) → notDigitStart rest = true →
    (l ++ rest).takeWhile Char.isDigit = l ∧ (l ++ rest).dropWhile Char.isDigit = rest := by
  intro l
  induction l with
  | nil =>
    intro rest _ hrest
    cases rest with
    | nil => simp
    | cons c r =>
      simp only [notDigitStart, Bool.not_eq_true'] at hrest
      simp [List.takeWhile, List.dropWhile, hrest]
  | cons c l ihl =>
    intro rest hl hrest
    have hc : c.isDigit = true := hl c (by simp)
    have := ihl rest (fun d hd => hl d (by simp [hd])) hrest
    simp [List.takeWhile, List.dropWhile, hc, this.1, this.2]

theorem parseNat_natToChars (n : Nat) (rest : List Char) (hrest : notDigitStart rest = true) :
    parseNat (natToChars n ++ rest) = some (n, rest) := by
  have hsplit := digits_split (natToChars n) rest (natToChars_digits n) hrest
  unfold parseNat
  rw [hsplit.1, hsplit.2]
  rcases List.exists_cons_of_ne_nil (natToChars_ne_nil n) with ⟨d, ds, hds⟩
  rw [hds]
  have := digitsToNat_natToChars n 0
  rw [hds] at this
  simp only [this]
  simp

theorem hexVal_hexDigitChar : ∀ m, m < 16 → hexVal (hexDigitChar m) = some m := by
  intro m hm
  interval_cases m <;> decide

set_option maxHeartbeats 2000000 in
theorem parseStrBody_escapeChar (c : Char) (f : Nat) (tl : List Char) :
    parseStrBody (f + 1) (escapeChar c ++ tl) = consChar c (parseStrBody f tl) := by
  unfold escapeChar
  split_ifs with h1 h2 h3 h4 h5 h6 h7 h8
  · subst h1; simp [parseStrBody, unescape1]
  · subst h2; simp [parseStrBody, unescape1]
  · subst h3; simp [parseStrBody, unescape1]
  · subst h4; simp [parseStrBody, unescape1]
  · subst h5; simp [parseStrBody, unescape1]
  · subst h6; simp [parseStrBody, unescape1]
  · subst h7; simp [parseStrBody, unescape1]
  · simp only [List.cons_append, List.nil_append, parseStrBody]
    rw [if_neg (by decide), if_pos (by decide)]
    simp only [unescape1, List.append_eq, List.cons_append, List.nil_append]
    have e0 : hexVal '0' = some 0 := by decide
    rw [e0, hexVal_hexDigitChar (c.toNat / 16) (by omega),
        hexVal_hexDigitChar (c.toNat % 16) (by omega)]
    have harith : ((0 * 16 + 0) * 16 + c.toNat / 16) * 16 + c.toNat % 16 = c.toNat := by omega
    simp only [harith, Char.ofNat_toNat]
  · simp only [List.cons_append, List.nil_append, parseStrBody]
    rw [if_neg h1, if_neg h2]
    simp

theorem parseStrBody_round : ∀ (cs : List Char) (f : Nat) (rest : List Char),
    cs.length < f → parseStrBody f (escapeStr cs ++ '"' :: rest) = some (cs, rest) := by
  intro cs
  induction cs with
  | nil =>
    intro f rest hf
    match f, hf with
    | g + 1, _ => simp [escapeStr, parseStrBody]
  | cons c cs ihc =>
    intro f rest hf
    match f, hf with
    | g + 1, hf =>
      have hsplit : escapeStr (c :: cs) ++ '"' :: rest
          = escapeChar c ++ (escapeStr cs ++ '"' :: rest) := by
        simp [escapeStr, List.append_assoc]
      rw [hsplit, parseStrBody_escapeChar]
      rw [ihc g rest (by simp only [List.length_cons] at hf; omega)]
      rfl

theorem escapeChar_length (c : Char) : 1 ≤ (escapeChar c).length := by
  unfold escapeChar
  split_ifs <;> simp

theorem escapeStr_length : ∀ cs : List Char, cs.length ≤ (escapeStr cs).length := by
  intro cs
  induction cs with
  | nil => simp [escapeStr]
  | cons c cs ihc =>
    simp only [escapeStr, List.length_cons, List.length_append]
    have := escapeChar_length c
    omega

theorem pfuel_pos : ∀ x : Value, 1 ≤ pfuel x := by
  intro x
  cases x <;> simp [pfuel]

theorem pfuelList_pos : ∀ xs : List Value, 1 ≤ pfuelList xs := by
  intro xs
  cases xs with
  | nil => simp [pfuelList]
  | cons x xs => simp only [pfuelList]; omega

theorem pfuelObj_pos : ∀ kvs : List (String × Value), 1 ≤ pfuelObj kvs := by
  intro kvs
  cases kvs with
  | nil => simp [pfuelObj]
  | cons kv kvs => rcases kv with ⟨k, v⟩; simp only [pfuelObj]; omega

theorem serialize_head : ∀ x : Value, ∃ c cs, serialize x = c :: cs ∧ c ≠ ']' := by
  intro x
  cases x with
  | vUndefined => exact ⟨'n', _, rfl, by decide⟩
  | vNull => exact ⟨'n', _, rfl, by decide⟩
  | vBool b => cases b with
    | true => exact ⟨'t', _, rfl, by decide⟩
    | false => exact ⟨'f', _, rfl, by decide⟩
  | vNum n =>
    cases n with
    | ofNat m =>
      rcases List.exists_cons_of_ne_nil (natToChars_ne_nil m) with ⟨d, ds, hds⟩
      refine ⟨d, ds, by simp [serialize, intToChars, hds], ?_⟩
      intro hd
      have hdig := natToChars_digits m d (by rw [hds]; simp)
      rw [hd] at hdig
      exact absurd hdig (by decide)
    | negSucc m => exact ⟨'-', _, rfl, by decide⟩
  | vStr s => exact ⟨'"', _, rfl, by decide⟩
  | vArr xs => exact ⟨'[', _, rfl, by decide⟩
  | vObj kvs => exact ⟨'{', _, rfl, by decide⟩

theorem digit_ne (d e : Char) (hd : d.isDigit = true) (he : e.isDigit = false) : d ≠ e := by
  rintro rfl
  rw [hd] at he
  exact absurd he (by decide)

theorem notDigitStart_arrTail (xs : List Value) (rest : List Char) :
    notDigitStart (serializeArrSep xs ++ ']' :: rest) = true := by
  cases xs with
  | nil => simp [serializeArrSep, notDigitStart]
  | cons y ys => simp [serializeArrSep, notDigitStart, List.cons_append]

theorem notDigitStart_objTail (kvs : List (String × Value)) (rest : List Char) :
    notDigitStart (serializeObjSep kvs ++ '}' :: rest) = true := by
  cases kvs with
  | nil => simp [serializeObjSep, notDigitStart]
  | cons kv kvs => simp [serializeObjSep, notDigitStart, List.cons_append]

set_option maxHeartbeats 4000000

mutual
/-- Parsing the serialization of a template-free value returns it exactly. -/
theorem parseJ_serialize : ∀ (f : Nat) (x : Value) (rest : List Char),
    jsonTemplateFree x = true → notDigitStart rest = true → pfuel x ≤ f →
    parseJ f (serialize x ++ rest) = some (x, rest)
  | 0, x, _, _, _, hf => absurd hf (by have := pfuel_pos x; omega)
  | f + 1, x, rest, hfree, hrest, hf => by
    cases x with
    | vUndefined => simp [jsonTemplateFree] at hfree
    | vNull => simp [serialize, parseJ]
    | vBool b => cases b <;> simp [serialize, parseJ]
    | vStr s =>
      have hlen : s.data.length < (escapeStr s.data ++ '"' :: rest).length + 1 := by
        simp only [List.length_append, List.length_cons]
        have := escapeStr_length s.data
        omega
      simp only [serialize, List.cons_append, List.append_assoc, List.nil_append, parseJ,
        Char.reduceEq, reduceIte, List.append_eq]
      simp only [parseStrBody_round s.data _ rest hlen]
    | vNum n =>
      cases n with
      | ofNat m =>
        rcases List.exists_cons_of_ne_nil (natToChars_ne_nil m) with ⟨d, ds, hds⟩
        have hd : d.isDigit = true := natToChars_digits m d (by rw [hds]; simp)
        have hin : serialize (.vNum (Int.ofNat m)) ++ rest = d :: (ds ++ rest) := by
          simp [serialize, intToChars, hds]
        rw [hin]
        simp only [parseJ]
        rw [if_neg (digit_ne d 'n' hd (by decide)),
            if_neg (digit_ne d 't' hd (by decide)),
            if_neg (digit_ne d 'f' hd (by decide)),
            if_neg (digit_ne d '"' hd (by decide)),
            if_neg (digit_ne d '[' hd (by decide)),
            if_neg (digit_ne d '{' hd (by decide)),
            if_neg (digit_ne d '-' hd (by decide)),
            if_pos hd]
        rw [show d :: (ds ++ rest) = natToChars m ++ rest from by rw [hds]; rfl]
        simp only [parseNat_natToChars m rest hrest]
        rfl
      | negSucc m =>
        have hneg : (-(((m + 1 : Nat)) : Int)) = Int.negSucc m := by
          rw [Int.negSucc_eq]
          push_cast
          ring
        simp only [serialize, intToChars, List.cons_append, parseJ, Char.reduceEq, reduceIte,
          List.append_eq]
        simp only [parseNat_natToChars (m + 1) rest hrest]
        simp only [hneg]
    | vArr xs =>
      cases xs with
      | nil => simp [serialize, serializeArr, parseJ]
      | cons x xs =>
        have h0 : (jsonTemplateFree x && jsonTemplateFreeList xs) = true := hfree
        rw [Bool.and_eq_true] at h0
        have hfx : pfuel x ≤ f := by
          simp only [pfuel, pfuelList] at hf; omega
        have hfxs : pfuelList xs ≤ f := by
          simp only [pfuel, pfuelList] at hf; omega
        have hin : serialize (.vArr (x :: xs)) ++ rest
            = '[' :: (serialize x ++ (serializeArrSep xs ++ ']' :: rest)) := by
          simp [serialize, serializeArr, List.cons_append, List.append_assoc]
        rw [hin]
        rcases serialize_head x with ⟨c1, cs1, hsx, hc1⟩
        rw [hsx, List.cons_append]
        simp only [parseJ, Char.reduceEq, reduceIte]
        rw [if_neg hc1]
        rw [show c1 :: (cs1 ++ (serializeArrSep xs ++ ']' :: rest))
              = serialize x ++ (serializeArrSep xs ++ ']' :: rest) from by rw [hsx]; rfl]
        simp only [parseJ_serialize f x _ h0.1 (notDigitStart_arrTail xs rest) hfx]
        simp only [parseArrSep_serialize f xs rest h0.2 hfxs]
    | vObj kvs =>
      cases kvs with
      | nil => simp [serialize, serializeObj, parseJ]
      | cons kv kvs =>
        rcases kv with ⟨k, v⟩
        have h0 : (keyFresh k kvs && jsonTemplateFree v && jsonTemplateFreeObj kvs) = true := hfree
        rw [Bool.and_eq_true, Bool.and_eq_true] at h0
        have hfv : pfuel v < f := by
          have := pfuelObj_pos kvs
          simp only [pfuel, pfuelObj] at hf; omega
        have hfkvs : pfuelObj kvs ≤ f := by
          have := pfuel_pos v
          simp only [pfuel, pfuelObj] at hf; omega
        have hm : serializeMember (k, v) = '"' :: (escapeStr k.data ++ '"' :: ':' :: serialize v) := by
          simp [serializeMember, List.cons_append]
        have hin : serialize (.vObj ((k, v) :: kvs)) ++ rest
            = '{' :: (serializeMember (k, v) ++ (serializeObjSep kvs ++ '}' :: rest)) := by
          simp [serialize, serializeObj, List.cons_append, List.append_assoc]
        rw [hin, hm, List.cons_append]
        simp only [parseJ, Char.reduceEq, reduceIte]
        rw [show '"' :: ((escapeStr k.data ++ '"' :: ':' :: serialize v)
                ++ (serializeObjSep kvs ++ '}' :: rest))
              = serializeMember (k, v) ++ (serializeObjSep kvs ++ '}' :: rest) from by
            rw [hm]; rfl]
        simp only [parseMember_serialize f k v _ h0.1.2 (notDigitStart_objTail kvs rest) hfv]
        simp only [parseObjSep_serialize f kvs rest h0.2 hfkvs]

/-- Parsing the serialization of a template-free array tail returns it exactly. -/
theorem parseArrSep_serialize : ∀ (f : Nat) (xs : List Value) (rest : List Char),
    jsonTemplateFreeList xs = true → pfuelList xs ≤ f →
    parseArrSep f (serializeArrSep xs ++ ']' :: rest) = some (xs, rest)
  | 0, xs, _, _, hf => absurd hf (by have := pfuelList_pos xs; omega)
  | f + 1, [], rest, _, _ => by simp [serializeArrSep, parseArrSep]
  | f + 1, y :: ys, rest, hfree, hf => by
    have h0 : (jsonTemplateFree y && jsonTemplateFreeList ys) = true := hfree
    rw [Bool.and_eq_true] at h0
    have hfy : pfuel y ≤ f := by simp only [pfuelList] at hf; omega
    have hfys : pfuelList ys ≤ f := by simp only [pfuelList] at hf; omega
    have hin : serializeArrSep (y :: ys) ++ ']' :: rest
        = ',' :: (serialize y ++ (serializeArrSep ys ++ ']' :: rest)) := by
      simp [serializeArrSep, List.cons_append, List.append_assoc]
    rw [hin]
    simp only [parseArrSep]
    simp only [parseJ_serialize f y _ h0.1 (notDigitStart_arrTail ys rest) hfy]
    simp only [parseArrSep_serialize f ys rest h0.2 hfys]

/-- Parsing the serialization of a template-free object member returns it exactly. -/
theorem parseMember_serialize : ∀ (f : Nat) (k : String) (v : Value) (rest : List Char),
    jsonTemplateFree v = true → notDigitStart rest = true → pfuel v < f →
    parseMember f (serializeMember (k, v) ++ rest) = some ((k, v), rest)
  | 0, _, v, _, _, _, hf => absurd hf (by omega)
  | f + 1, k, v, rest, hv, hrest, hf => by
    have hm : serializeMember (k, v) ++ rest
        = '"' :: (escapeStr k.data ++ '"' :: (':' :: (serialize v ++ rest))) := by
      simp [serializeMember, List.cons_append, List.append_assoc]
    rw [hm]
    simp only [parseMember]
    have hlen : k.data.length
        < (escapeStr k.data ++ '"' :: (':' :: (serialize v ++ rest))).length + 1 := by
      simp only [List.length_append, List.length_cons]
      have := escapeStr_length k.data
      omega
    simp only [parseStrBody_round k.data _ (':' :: (serialize v ++ rest)) hlen]
    simp only [parseJ_serialize f v rest hv hrest (by omega : pfuel v ≤ f)]
  
/-- Parsing the serialization of a template-free object tail returns it exactly. -/
theorem parseObjSep_serialize : ∀ (f : Nat) (kvs : List (String × Value)) (rest : List Char),
    jsonTemplateFreeObj kvs = true → pfuelObj kvs ≤ f →
    parseObjSep f (serializeObjSep kvs ++ '}' :: rest) = some (kvs, rest)
  | 0, kvs, _, _, hf => absurd hf (by have := pfuelObj_pos kvs; omega)
  | f + 1, [], rest, _, _ => by simp [serializeObjSep, parseObjSep]
  | f + 1, (k, v) :: kvs, rest, hfree, hf => by
    have h0 : (keyFresh k kvs && jsonTemplateFree v && jsonTemplateFreeObj kvs) = true := hfree
    rw [Bool.and_eq_true, Bool.and_eq_true] at h0
    have hfv : pfuel v < f := by
      have := pfuelObj_pos kvs
      simp only [pfuelObj] at hf; omega
    have hfkvs : pfuelObj kvs ≤ f := by
      have := pfuel_pos v
      simp only [pfuelObj] at hf; omega
    have hin : serializeObjSep ((k, v) :: kvs) ++ '}' :: rest
        = ',' :: (serializeMember (k, v) ++ (serializeObjSep kvs ++ '}' :: rest)) := by
      simp [serializeObjSep, List.cons_append, List.append_assoc]
    rw [hin]
    simp only [parseObjSep]
    simp only [parseMember_serialize f k v _ h0.1.2 (notDigitStart_objTail kvs rest) hfv]
    simp only [parseObjSep_serialize f kvs rest h0.2 hfkvs]
end

set_option maxHeartbeats 200000

theorem serializeArrSep_length : ∀ xs : List Value,
    (serializeArrSep xs).length ≤ (serializeArr xs).length + 1
  | [] => by simp [serializeArrSep, serializeArr]
  | y :: ys => by
    simp [serializeArrSep, serializeArr, List.length_append]

theorem serializeObjSep_length : ∀ kvs : List (String × Value),
    (serializeObjSep kvs).length ≤ (serializeObj kvs).length + 1
  | [] => by simp [serializeObjSep, serializeObj]
  | kv :: kvs => by
    simp [serializeObjSep, serializeObj, List.length_append]

mutual
/-- The fuel `pfuel` needs never exceeds twice the serialized length. -/
theorem pfuel_le : ∀ x : Value, pfuel x ≤ 2 * (serialize x).length
  | .vUndefined => by simp [pfuel, serialize]
  | .vNull => by simp [pfuel, serialize]
  | .vBool b => by cases b <;> simp [pfuel, serialize]
  | .vNum n => by
    cases n with
    | ofNat m =>
      have h1 : 0 < (natToChars m).length := List.length_pos.mpr (natToChars_ne_nil m)
      simp only [pfuel, serialize, intToChars]
      omega
    | negSucc m =>
      simp only [pfuel, serialize, intToChars, List.length_cons]
      omega
  | .vStr s => by
    simp only [pfuel, serialize, List.length_cons, List.length_append]
    omega
  | .vArr xs => by
    have h := pfuelList_le xs
    have hs := serializeArrSep_length xs
    simp only [pfuel, serialize, List.length_cons, List.length_append]
    omega
  | .vObj kvs => by
    have h := pfuelObj_le kvs
    have hs := serializeObjSep_length kvs
    simp only [pfuel, serialize, List.length_cons, List.length_append]
    omega

/-- Array-tail analogue of the fuel bound. -/
theorem pfuelList_le : ∀ xs : List Value,
    pfuelList xs ≤ 2 * (serializeArrSep xs).length + 1
  | [] => by simp [pfuelList, serializeArrSep]
  | x :: xs => by
    have h1 := pfuel_le x
    have h2 := pfuelList_le xs
    simp only [pfuelList, serializeArrSep, List.length_cons, List.length_append]
    omega

/-- Object-tail analogue of the fuel bound. -/
theorem pfuelObj_le : ∀ kvs : List (String × Value),
    pfuelObj kvs ≤ 2 * (serializeObjSep kvs).length + 1
  | [] => by simp [pfuelObj, serializeObjSep]
  | (k, v) :: kvs => by
    have h1 := pfuel_le v
    have h2 := pfuelObj_le kvs
    simp only [pfuelObj, serializeObjSep, serializeMember, List.length_cons, List.length_append]
    omega
end

/-- `JSON.parse` inverts `JSON.stringify` on template-free values. -/
theorem parseJson_serialize (x : Value) (hfree : jsonTemplateFree x = true) :
    parseJson (String.mk (serialize x)) = some x := by
  have hx : parseJ (2 * (serialize x).length + 2) (serialize x) = some (x, []) := by
    have h := parseJ_serialize (2 * (serialize x).length + 2) x [] hfree rfl
      (by have := pfuel_le x; omega)
    rwa [List.append_nil] at h
  unfold parseJson
  rw [show (String.mk (serialize x)).data = serialize x from rfl,
      show (String.mk (serialize x)).length = (serialize x).length from rfl]
  rw [hx]

/-- C10: round-trip identity of interpolation — for every JSON-representable
value x (any nesting of null, booleans, numbers, strings, arrays, objects)
containing no "${" substring in any of its strings, and for every context
ctx, resolve (parseJson (serialize x)) ctx is structurally equal to x. -/
theorem C10_round_trip (x : Value) (ctx : Ctx) (hfree : jsonTemplateFree x = true) :
    (parseJson (String.mk (serialize x))).map (fun v => resolve v ctx) = some x := by
  rw [parseJson_serialize x hfree]
  simp [resolve_id x ctx hfree]

/-- Witness: the C10 theorem applied at a concrete nested value and context. -/
theorem C10_round_trip_witness :
    jsonTemplateFree (Value.vObj [("a", Value.vNum 5),
      ("b", Value.vArr [Value.vStr "hi", Value.vNull, Value.vNum (-7), Value.vBool true]),
      ("c", Value.vStr "")]) = true ∧
    (parseJson (String.mk (serialize (Value.vObj [("a", Value.vNum 5),
      ("b", Value.vArr [Value.vStr "hi", Value.vNull, Value.vNum (-7), Value.vBool true]),
      ("c", Value.vStr "")])))).map
        (fun v => resolve v [("a", Value.vStr "ctx")])
      = some (Value.vObj [("a", Value.vNum 5),
      ("b", Value.vArr [Value.vStr "hi", Value.vNull, Value.vNum (-7), Value.vBool true]),
      ("c", Value.vStr "")]) :=
  ⟨by decide, C10_round_trip (Value.vObj [("a", Value.vNum 5),
      ("b", Value.vArr [Value.vStr "hi", Value.vNull, Value.vNum (-7), Value.vBool true]),
      ("c", Value.vStr "")]) [("a", Value.vStr "ctx")] (by decide)⟩

end Flux
